import Mathlib

/-!
Shallow embedding of the django-cotton fast compiler
(src/django_cotton/_fastcompiler/src/lib.rs).

Strings are modelled as lists of characters and positions as character
indices.  The Rust source works on UTF-8 byte offsets; every delimiter it
tests for is ASCII, and UTF-8 continuation bytes never collide with ASCII
bytes, so the byte view and the character view recognise exactly the same
regions.  Rust Result values and PyErr values are modelled with Except,
errors carrying the message as a character list.  The scanning loops of the
source advance a strictly increasing cursor bounded by the text length; they
are modelled with an explicit fuel argument that the top-level wrappers
instantiate with length + 1, which is always sufficient.
-/

/-- ASCII whitespace test, as u8.is_ascii_whitespace in the source. -/
def chWs (c : Char) : Bool :=
  c == ' ' || c == '\t' || c == '\n' || c == '\x0c' || c == '\r'

/-- ASCII alphanumeric-or-underscore test, used by skip_identifier. -/
def chIdent (c : Char) : Bool :=
  (decide (97 ≤ c.toNat) && decide (c.toNat ≤ 122)) ||
  (decide (65 ≤ c.toNat) && decide (c.toNat ≤ 90)) ||
  (decide (48 ≤ c.toNat) && decide (c.toNat ≤ 57)) || c == '_'

/-- Length of the longest prefix whose characters satisfy p (models the
source's while-loops that advance an index while a byte test holds). -/
def countWhile (p : Char → Bool) : List Char → Nat
  | [] => 0
  | c :: t => if p c then countWhile p t + 1 else 0

/-- str::starts_with for character lists (pattern first). -/
def startsWithL : List Char → List Char → Bool
  | [], _ => true
  | _ :: _, [] => false
  | p :: ps, c :: cs => p == c && startsWithL ps cs

/-- The slice html[a..b] of the source, as a character list. -/
def sliceL (l : List Char) (a b : Nat) : List Char := (l.drop a).take (b - a)

/-- str::find: offset of the leftmost occurrence of pat. -/
def findSub (pat : List Char) : List Char → Option Nat
  | [] => if startsWithL pat [] then some 0 else none
  | c :: t => if startsWithL pat (c :: t) then some 0 else (findSub pat t).map (· + 1)

/-- str::contains for a substring pattern. -/
def containsSub (pat l : List Char) : Bool := (findSub pat l).isSome

/-- skip_whitespace of the source. -/
def skip_whitespace (html : List Char) (index : Nat) : Nat :=
  index + countWhile chWs (html.drop index)

/-- skip_identifier of the source. -/
def skip_identifier (html : List Char) (index : Nat) : Nat :=
  index + countWhile chIdent (html.drop index)

/-- find_simple_close of the source. -/
def find_simple_close (html : List Char) (start : Nat) (needle : List Char) : Option Nat :=
  (findSub needle (html.drop start)).map (fun offset => start + offset + needle.length)

/-- Loop body of find_named_block_end; the cursor pos advances by at least
two each iteration, so the wrapper's fuel of length + 1 never runs out. -/
def find_named_block_end_go (closing_keyword html : List Char) : Nat → Nat → Option Nat
  | 0, _ => none
  | fuel+1, pos =>
    if pos < html.length then
      match findSub ("\x7b%".data) (html.drop pos) with
      | none => none
      | some relative =>
        let block_start := pos + relative
        let keyword_start := skip_whitespace html (block_start + 2)
        if startsWithL closing_keyword (html.drop keyword_start) then
          let after_keyword := skip_identifier html (keyword_start + closing_keyword.length)
          let end_pos := skip_whitespace html after_keyword
          if startsWithL ("%\x7d".data) (html.drop end_pos) then some (end_pos + 2)
          else find_named_block_end_go closing_keyword html fuel (block_start + 2)
        else find_named_block_end_go closing_keyword html fuel (block_start + 2)
    else none

/-- find_named_block_end of the source. -/
def find_named_block_end (html : List Char) (search_start : Nat) (closing_keyword : List Char) : Option Nat :=
  find_named_block_end_go closing_keyword html (html.length + 1) search_start

/-- match_ignorable of the source. -/
def match_ignorable (html : List Char) (start : Nat) : Option (Nat × List Char) :=
  let slice := html.drop start
  if startsWithL ("\x7b%".data) slice then
    let after_brace := skip_whitespace html (start + 2)
    if startsWithL ("cotton_verbatim".data) (html.drop after_brace) then
      match find_named_block_end html (skip_identifier html (after_brace + ("cotton_verbatim".data).length)) ("endcotton_verbatim".data) with
      | some e => some (e, sliceL html start e)
      | none => none
    else if startsWithL ("comment".data) (html.drop after_brace) then
      match find_named_block_end html (skip_identifier html (after_brace + ("comment".data).length)) ("endcomment".data) with
      | some e => some (e, sliceL html start e)
      | none => none
    else
      match find_simple_close html start ("%\x7d".data) with
      | some e => some (e, sliceL html start e)
      | none => none
  else if startsWithL ("\x7b#".data) slice then
    match find_simple_close html start ("#\x7d".data) with
    | some e => some (e, sliceL html start e)
    | none => none
  else if startsWithL ("\x7b\x7b".data) slice then
    match find_simple_close html start ("\x7d\x7d".data) with
    | some e => some (e, sliceL html start e)
    | none => none
  else none

/-- The Ignorable record of the source. -/
structure Ignorable where
  placeholder : List Char
  content : List Char
deriving Repr, DecidableEq

/-- The placeholder string format!("__COTTON_IGNORE_<n>__") of the source. -/
def placeholderFor (n : Nat) : List Char :=
  "__COTTON_IGNORE_".data ++ (Nat.repr n).data ++ "__".data

/-- Loop body of exclude_ignorables; the index strictly increases each
iteration, so fuel length + 1 is sufficient. -/
def exclude_go (html : List Char) : Nat → Nat → List Char → List Ignorable → List Char × List Ignorable
  | 0, _, output, ignorables => (output, ignorables)
  | fuel+1, index, output, ignorables =>
    if index < html.length then
      match match_ignorable html index with
      | some (e, content) =>
        let placeholder := placeholderFor ignorables.length
        exclude_go html fuel e (output ++ placeholder) (ignorables ++ [⟨placeholder, content⟩])
      | none =>
        match html.drop index with
        | [] => (output, ignorables)
        | ch :: _ => exclude_go html fuel (index + 1) (output ++ [ch]) ignorables
    else (output, ignorables)

/-- exclude_ignorables of the source. -/
def exclude_ignorables (html : List Char) : List Char × List Ignorable :=
  exclude_go html (html.length + 1) 0 [] []

/-- str::replace (all non-overlapping occurrences, left to right); every
call site of the source passes a non-empty pattern.  Fuel is instantiated
with the list length + 1 by the wrapper, which is sufficient since each
step consumes at least one character. -/
def replaceGo : Nat → List Char → List Char → List Char → List Char
  | 0, _, _, l => l
  | _+1, _, _, [] => []
  | fuel+1, pat, rep, c :: rest =>
    if pat ≠ [] ∧ startsWithL pat (c :: rest) = true then
      rep ++ replaceGo fuel pat rep ((c :: rest).drop pat.length)
    else
      c :: replaceGo fuel pat rep rest

/-- String::replace of the source, applied to the whole text. -/
def replaceAll (l pat rep : List Char) : List Char :=
  replaceGo (l.length + 1) pat rep l

/-- extract_verbatim_inner of the source. -/
def extract_verbatim_inner (content : List Char) : List Char :=
  match findSub ("%\x7d".data) content with
  | some open_end =>
    match findSub ("\x7b% endcotton_verbatim".data) (content.drop (open_end + 2)) with
    | some close_rel => sliceL content (open_end + 2) (open_end + 2 + close_rel)
    | none => content
  | none => content

/-- restore_ignorables of the source. -/
def restore_ignorables (html : List Char) (ignorables : List Ignorable) : List Char :=
  ignorables.foldl
    (fun acc ig =>
      let content :=
        if startsWithL ("\x7b% cotton_verbatim".data) (ig.content.dropWhile chWs)
        then extract_verbatim_inner ig.content
        else ig.content
      replaceAll acc ig.placeholder content)
    html

/-- The Attribute record of the source. -/
structure Attribute where
  key : List Char
  value : Option (List Char)
deriving Repr, DecidableEq

/-- The ParsedTag record of the source (field end_ is the source's end). -/
structure ParsedTag where
  original : List Char
  name : List Char
  attributes : List Attribute
  attrs_repr : List Char
  is_closing : Bool
  is_self_closing : Bool
  start : Nat
  end_ : Nat
deriving Repr, DecidableEq

/-- Trailing-whitespace trim (the source's backwards while-loop over the
attribute span). -/
def dropTrailWs (l : List Char) : List Char := (l.reverse.dropWhile chWs).reverse

/-- str::trim (both ends), used on attrs_repr by process_c_vars. -/
def trimL (l : List Char) : List Char := dropTrailWs (l.dropWhile chWs)

/-- The quote-tracking forward scan of parse_c_tag: offset of the first
greater-than sign that is outside single or double quotes, or none when the
text ends first. -/
def scanToGt : Option Char → List Char → Option Nat
  | _, [] => none
  | in_quote, c :: rest =>
    if c == '"' || c == '\'' then
      if some c = in_quote then (scanToGt none rest).map (· + 1)
      else if in_quote = none then (scanToGt (some c) rest).map (· + 1)
      else (scanToGt in_quote rest).map (· + 1)
    else if c == '>' && in_quote.isNone then some 0
    else (scanToGt in_quote rest).map (· + 1)

/-- Loop body of parse_attributes; the index strictly increases each
iteration, so fuel length + 1 is sufficient. -/
def parse_attributes_go (attrs : List Char) : Nat → Nat → List Attribute → List Attribute
  | 0, _, acc => acc
  | fuel+1, index0, acc =>
    if index0 < attrs.length then
      let index1 := skip_whitespace attrs index0
      if index1 ≥ attrs.length then acc
      else
        let key_end := index1 + countWhile (fun c => !(chWs c || c == '=')) (attrs.drop index1)
        if key_end = index1 then acc
        else
          let key := sliceL attrs index1 key_end
          let index2 := skip_whitespace attrs key_end
          match attrs.drop index2 with
          | '=' :: _ =>
            let index3 := skip_whitespace attrs (index2 + 1)
            if index3 ≥ attrs.length then acc ++ [⟨key, none⟩]
            else
              match attrs.drop index3 with
              | q :: _ =>
                if q == '"' || q == '\'' then
                  let vlen := countWhile (fun c => !(c == q)) (attrs.drop (index3 + 1))
                  let vend := index3 + 1 + vlen
                  let value := sliceL attrs (index3 + 1) vend
                  let index4 := if vend < attrs.length then vend + 1 else vend
                  parse_attributes_go attrs fuel index4 (acc ++ [⟨key, some value⟩])
                else
                  let vlen := countWhile (fun c => !(chWs c)) (attrs.drop index3)
                  parse_attributes_go attrs fuel (index3 + vlen)
                    (acc ++ [⟨key, some (sliceL attrs index3 (index3 + vlen))⟩])
              | [] => acc ++ [⟨key, none⟩]
          | _ => parse_attributes_go attrs fuel index2 (acc ++ [⟨key, none⟩])
    else acc

/-- parse_attributes of the source. -/
def parse_attributes (attrs : List Char) : List Attribute :=
  parse_attributes_go attrs (attrs.length + 1) 0 []

/-- parse_c_tag of the source: the shared tag-parsing primitive. -/
def parse_c_tag (html : List Char) (start : Nat) : Except (List Char) (Option ParsedTag) :=
  if ¬ startsWithL ("<".data) (html.drop start) then .ok none
  else
    let idx1 := start + 1
    if idx1 ≥ html.length then .ok none
    else
      let is_closing := startsWithL ("/".data) (html.drop idx1)
      let idx2 := if is_closing then idx1 + 1 else idx1
      if idx2 + 2 > html.length ∨ ¬ startsWithL ("c-".data) (html.drop idx2) then .ok none
      else
        let name_start := idx2 + 2
        let name_end := name_start + countWhile (fun c => !(chWs c || c == '>' || c == '/')) (html.drop name_start)
        if name_end = name_start then .error ("c- tag missing component name".data)
        else
          let name := sliceL html name_start name_end
          let attr_start := name_end
          match scanToGt none (html.drop name_end) with
          | none => .error ("Unterminated c- tag".data)
          | some off =>
            let pos := name_end + off
            let tag_end := pos + 1
            if is_closing then
              .ok (some { original := sliceL html start tag_end, name := name,
                          attributes := [], attrs_repr := [],
                          is_closing := true, is_self_closing := false,
                          start := start, end_ := tag_end })
            else
              let t1 := dropTrailWs (sliceL html attr_start pos)
              if t1 ≠ [] ∧ t1.getLast? = some '/' then
                let attrs_repr := dropTrailWs t1.dropLast
                .ok (some { original := sliceL html start tag_end, name := name,
                            attributes := parse_attributes attrs_repr, attrs_repr := attrs_repr,
                            is_closing := false, is_self_closing := true,
                            start := start, end_ := tag_end })
              else
                .ok (some { original := sliceL html start tag_end, name := name,
                            attributes := parse_attributes t1, attrs_repr := t1,
                            is_closing := false, is_self_closing := false,
                            start := start, end_ := tag_end })

/-- process_slot of the source: the for-loop returns on the first name
attribute that carries a value and keeps scanning past valueless ones. -/
def process_slot (tag : ParsedTag) : Except (List Char) (List Char) :=
  if tag.is_closing then .ok ("\x7b% endslot %\x7d".data)
  else
    match tag.attributes.find? (fun a => a.key == "name".data && a.value.isSome) with
    | some attr =>
      match attr.value with
      | some value => .ok ("\x7b% slot ".data ++ value ++ " %\x7d".data)
      | none => .error ("c-slot tag must have a name attribute: ".data ++ tag.original)
    | none => .error ("c-slot tag must have a name attribute: ".data ++ tag.original)

/-- str::join(" ") over the processed attribute strings. -/
def joinSep (sep : List Char) : List (List Char) → List Char
  | [] => []
  | [x] => x
  | x :: y :: t => x ++ sep ++ joinSep sep (y :: t)

/-- should_extract of the source. -/
def should_extract (value : List Char) : Bool :=
  containsSub ("\x7b\x7b".data) value || containsSub ("\x7b%".data) value ||
  value.contains '=' || containsSub ("__COTTON_IGNORE_".data) value

/-- build_attribute_strings of the source. -/
def build_attribute_strings (attributes : List Attribute) : List Char × List Char :=
  let st := attributes.foldl
    (fun (st : List (List Char) × List Char) (a : Attribute) =>
      match a.value with
      | none => (st.1 ++ [a.key], st.2)
      | some value =>
        if should_extract value then
          (st.1, st.2 ++ "\x7b% attr ".data ++ a.key ++ " %\x7d".data ++ value
                 ++ "\x7b% endattr %\x7d".data)
        else
          (st.1 ++ [a.key ++ "=\"".data ++ value ++ "\"".data], st.2))
    ([], [])
  (if st.1 = [] then [] else " ".data ++ joinSep (" ".data) st.1, st.2)

/-- process_component of the source. -/
def process_component (tag : ParsedTag) : Except (List Char) (List Char × Option (List Char)) :=
  if tag.is_closing then .ok ("\x7b% endc %\x7d".data, none)
  else
    let bas := build_attribute_strings tag.attributes
    let opening_tag := "\x7b% c ".data ++ tag.name ++ bas.1 ++ " %\x7d".data
    let replacement := opening_tag ++ bas.2 ++ (if tag.is_self_closing then "\x7b% endc %\x7d".data else [])
    if tag.name = "component".data then
      match tag.attributes.find? (fun a => a.key == "is".data) with
      | some attr =>
        match attr.value with
        | some value =>
          if startsWithL ("__COTTON_IGNORE_".data) value then .ok (replacement, none)
          else .ok (replacement, some value)
        | none => .error ("c-component tag must include an \"is\" attribute.".data)
      | none => .error ("c-component tag must include an \"is\" attribute.".data)
    else if tag.name ≠ "slot".data ∧ tag.name ≠ "vars".data ∧ ¬ startsWithL ("__COTTON_IGNORE_".data) tag.name then
      .ok (replacement, some tag.name)
    else
      .ok (replacement, none)

/-- build_py_error of the source: 1-based line number from the newline
count of the text preceding the error position in the current working
text, then the fixed message prefix. -/
def build_py_error (message html : List Char) (position : Nat) : List Char :=
  "Error in template at line ".data ++ (Nat.repr ((html.take position).count '\n' + 1)).data
    ++ ": ".data ++ message

/-- The message of the (unreachable) orphan closing c-vars branch. -/
def msgOrphanCVars : List Char :=
  "Unexpected closing c-vars tag without an opening tag.".data

/-- The duplicate c-vars message of the source. -/
def msgMultipleCVars : List Char :=
  "Multiple c-vars tags found in component template. Only one c-vars tag is allowed per template.".data

/-- The missing closing c-vars tag message of the source. -/
def msgMissingCVarsClose : List Char :=
  "Missing closing </c-vars> tag.".data

/-- Sentinel result of fuel exhaustion; never produced when the wrapper
instantiates the fuel (proved by the fuel-sufficiency lemmas below). -/
def msgOutOfFuel : List Char := "scanner fuel exhausted".data

/-- Loop body of process_c_vars; the index strictly increases each
iteration, so fuel length + 1 is sufficient. -/
def process_c_vars_go (html : List Char) :
    Nat → Nat → Option (List Char) → List Char → Except (List Char) (Option (List Char) × List Char)
  | 0, _, _, _ => .error msgOutOfFuel
  | fuel+1, index, vars_content, output =>
    match findSub ("<c-vars".data) (html.drop index) with
    | none => .ok (vars_content, output ++ html.drop index)
    | some pos =>
      let absolute := index + pos
      let output1 := output ++ sliceL html index absolute
      match parse_c_tag html absolute with
      | .error msg => .error (build_py_error msg html absolute)
      | .ok none =>
        process_c_vars_go html fuel (absolute + 1) vars_content
          (output1 ++ sliceL html absolute (absolute + 1))
      | .ok (some tag) =>
        if tag.name ≠ "vars".data then
          process_c_vars_go html fuel tag.end_ vars_content (output1 ++ tag.original)
        else if tag.is_closing then .error msgOrphanCVars
        else if vars_content.isSome then .error msgMultipleCVars
        else
          let vc := some ("\x7b% vars ".data ++ trimL tag.attrs_repr ++ " %\x7d".data)
          if tag.is_self_closing then
            process_c_vars_go html fuel tag.end_ vc output1
          else
            match findSub ("</c-vars>".data) (html.drop tag.end_) with
            | some close_rel =>
              process_c_vars_go html fuel (tag.end_ + close_rel + ("</c-vars>".data).length) vc output1
            | none => .error msgMissingCVarsClose

/-- process_c_vars of the source. -/
def process_c_vars (html : List Char) : Except (List Char) (Option (List Char) × List Char) :=
  process_c_vars_go html (html.length + 1) 0 none []

/-- Loop body of collect_replacements; the index strictly increases each
iteration, so fuel length + 1 is sufficient.  The HashSet of seen
dependencies is modelled by the list seen: insert returns true exactly when
the element was not yet present. -/
def collect_go (html : List Char) :
    Nat → Nat → List (List Char × List Char) → List (List Char) → List (List Char) →
    Except (List Char) (List (List Char × List Char) × List (List Char))
  | 0, _, _, _, _ => .error msgOutOfFuel
  | fuel+1, index, replacements, dependencies, seen =>
    if index < html.length then
      match findSub ("<".data) (html.drop index) with
      | none => .ok (replacements, dependencies)
      | some rel =>
        let absolute := index + rel
        match parse_c_tag html absolute with
        | .error msg => .error (build_py_error msg html absolute)
        | .ok none => collect_go html fuel (absolute + 1) replacements dependencies seen
        | .ok (some tag) =>
          if startsWithL ("__COTTON_IGNORE_".data) tag.name then
            collect_go html fuel tag.end_ replacements dependencies seen
          else if tag.name = "vars".data then
            collect_go html fuel tag.end_ replacements dependencies seen
          else if tag.name = "slot".data then
            match process_slot tag with
            | .ok replacement =>
              collect_go html fuel tag.end_ (replacements ++ [(tag.original, replacement)]) dependencies seen
            | .error msg => .error (build_py_error msg html tag.start)
          else
            match process_component tag with
            | .ok rd =>
              let ds : List (List Char) × List (List Char) :=
                match rd.2 with
                | some dep => if seen.contains dep then (dependencies, seen)
                              else (dependencies ++ [dep], seen ++ [dep])
                | none => (dependencies, seen)
              collect_go html fuel tag.end_ (replacements ++ [(tag.original, rd.1)]) ds.1 ds.2
            | .error msg => .error (build_py_error msg html tag.start)
    else .ok (replacements, dependencies)

/-- collect_replacements of the source. -/
def collect_replacements (html : List Char) :
    Except (List Char) (List (List Char × List Char) × List (List Char)) :=
  collect_go html (html.length + 1) 0 [] [] []

/-- The ProcessedResult record of the source. -/
structure ProcessedResult where
  compiled : List Char
  dependencies : List (List Char)
deriving Repr, DecidableEq

/-- process_internal of the source: the whole pipeline. -/
def process_internal (html : List Char) : Except (List Char) ProcessedResult :=
  let ei := exclude_ignorables html
  match process_c_vars ei.1 with
  | .error e => .error e
  | .ok vp =>
    match collect_replacements vp.2 with
    | .error e => .error e
    | .ok rd =>
      let compiled0 := rd.1.foldl (fun acc pr => replaceAll acc pr.1 pr.2) vp.2
      let compiled1 :=
        match vp.1 with
        | some vars => vars ++ compiled0 ++ "\x7b% endvars %\x7d".data
        | none => compiled0
      .ok { compiled := restore_ignorables compiled1 ei.2, dependencies := rd.2 }

/-- The process entry point of the source. -/
def process (html : List Char) : Except (List Char) (List Char) :=
  (process_internal html).map (fun r => r.compiled)

/-- The process_with_dependencies entry point of the source. -/
def process_with_dependencies (html : List Char) : Except (List Char) (List Char × List (List Char)) :=
  (process_internal html).map (fun r => (r.compiled, r.dependencies))

/-- The get_dependencies entry point of the source. -/
def get_dependencies (html : List Char) : Except (List Char) (List (List Char)) :=
  (process_internal html).map (fun r => r.dependencies)

/-! ### Basic lemmas about the scanning helpers -/

theorem startsWithL_iff (p : List Char) : ∀ l, startsWithL p l = true ↔ ∃ r, l = p ++ r := by
  induction p with
  | nil => intro l; simp [startsWithL]
  | cons ph pt ih =>
    intro l
    cases l with
    | nil => simp [startsWithL]
    | cons c cs =>
      simp only [startsWithL, Bool.and_eq_true, beq_iff_eq, ih]
      constructor
      · rintro ⟨h1, r, h2⟩; exact ⟨r, by simp [h1, h2]⟩
      · rintro ⟨r, h⟩
        rw [List.cons_append] at h
        injection h with h1 h2
        exact ⟨h1.symm, r, h2⟩

theorem startsWithL_self_append (p r : List Char) : startsWithL p (p ++ r) = true :=
  (startsWithL_iff p (p ++ r)).mpr ⟨r, rfl⟩

theorem startsWithL_mem {p l : List Char} (h : startsWithL p l = true) : ∀ c ∈ p, c ∈ l := by
  obtain ⟨r, rfl⟩ := (startsWithL_iff p l).mp h
  intro c hc
  exact List.mem_append_left _ hc

theorem startsWithL_length {p l : List Char} (h : startsWithL p l = true) : p.length ≤ l.length := by
  obtain ⟨r, rfl⟩ := (startsWithL_iff p l).mp h
  simp

theorem countWhile_le (p : Char → Bool) : ∀ l, countWhile p l ≤ l.length := by
  intro l
  induction l with
  | nil => simp [countWhile]
  | cons c t ih =>
    simp only [countWhile]
    split
    · simpa using ih
    · simp

theorem countWhile_all {p : Char → Bool} : ∀ {l}, (∀ c ∈ l, p c = true) → countWhile p l = l.length := by
  intro l
  induction l with
  | nil => intro _; simp [countWhile]
  | cons c t ih =>
    intro h
    simp only [countWhile, h c (by simp)]
    simp [ih fun x hx => h x (by simp [hx])]

theorem countWhile_append_stop {p : Char → Bool} {xs : List Char} {y : Char} (ys : List Char)
    (hall : ∀ c ∈ xs, p c = true) (hy : p y = false) :
    countWhile p (xs ++ y :: ys) = xs.length := by
  induction xs with
  | nil => simp [countWhile, hy]
  | cons c t ih =>
    simp only [List.cons_append, countWhile, hall c (by simp)]
    simp [ih fun x hx => hall x (by simp [hx])]

theorem findSub_some {pat : List Char} : ∀ {l k}, findSub pat l = some k →
    startsWithL pat (l.drop k) = true := by
  intro l
  induction l with
  | nil =>
    intro k h
    simp only [findSub] at h
    split at h
    · rename_i hs
      injection h with h; subst h; simpa using hs
    · exact absurd h (by simp)
  | cons c t ih =>
    intro k h
    simp only [findSub] at h
    split at h
    · rename_i hs
      injection h with h; subst h; simpa using hs
    · cases hk : findSub pat t with
      | none => rw [hk] at h; exact absurd h (by simp)
      | some k2 =>
        rw [hk] at h
        simp only [Option.map_some'] at h
        injection h with h; subst h
        simpa using ih hk

theorem findSub_le {pat : List Char} : ∀ {l k}, findSub pat l = some k → k ≤ l.length := by
  intro l
  induction l with
  | nil =>
    intro k h
    simp only [findSub] at h
    split at h
    · injection h with h; omega
    · exact absurd h (by simp)
  | cons c t ih =>
    intro k h
    simp only [findSub] at h
    split at h
    · injection h with h; omega
    · cases hk : findSub pat t with
      | none => rw [hk] at h; exact absurd h (by simp)
      | some k2 =>
        rw [hk] at h
        simp only [Option.map_some'] at h
        injection h with h
        subst h
        have := ih hk
        simp only [List.length_cons]
        omega

theorem findSub_bound {pat l : List Char} {k : Nat} (h : findSub pat l = some k) :
    k + pat.length ≤ l.length := by
  have h1 := startsWithL_length (findSub_some h)
  rw [List.length_drop] at h1
  have h2 := findSub_le h
  omega

theorem mem_sliceL {l : List Char} {a b : Nat} : ∀ c ∈ sliceL l a b, c ∈ l := by
  intro c hc
  exact List.drop_subset _ _ (List.take_subset _ _ hc)

theorem mem_dropTrailWs {l : List Char} : ∀ c ∈ dropTrailWs l, c ∈ l := by
  intro c hc
  unfold dropTrailWs at hc
  rw [List.mem_reverse] at hc
  have := (List.dropWhile_sublist (l := l.reverse) chWs).subset hc
  simpa using this

theorem mem_trimL {l : List Char} : ∀ c ∈ trimL l, c ∈ l := by
  intro c hc
  unfold trimL at hc
  have := mem_dropTrailWs _ hc
  exact (List.dropWhile_sublist (l := l) chWs).subset this

theorem scanToGt_gt : ∀ {q l k}, scanToGt q l = some k → ∃ rest, l.drop k = '>' :: rest := by
  intro q l
  induction l generalizing q with
  | nil => intro k h; simp [scanToGt] at h
  | cons c t ih =>
    intro k h
    simp only [scanToGt] at h
    split at h
    · split at h
      · cases hk : scanToGt none t with
        | none => rw [hk] at h; exact absurd h (by simp)
        | some k2 =>
          rw [hk] at h; simp only [Option.map_some'] at h
          injection h with h; subst h
          simpa using ih hk
      · split at h
        · cases hk : scanToGt (some c) t with
          | none => rw [hk] at h; exact absurd h (by simp)
          | some k2 =>
            rw [hk] at h; simp only [Option.map_some'] at h
            injection h with h; subst h
            simpa using ih hk
        · cases hk : scanToGt q t with
          | none => rw [hk] at h; exact absurd h (by simp)
          | some k2 =>
            rw [hk] at h; simp only [Option.map_some'] at h
            injection h with h; subst h
            simpa using ih hk
    · split at h
      · rename_i hgt
        injection h with h; subst h
        simp only [Bool.and_eq_true, beq_iff_eq] at hgt
        exact ⟨t, by simp [hgt.1]⟩
      · cases hk : scanToGt q t with
        | none => rw [hk] at h; exact absurd h (by simp)
        | some k2 =>
          rw [hk] at h; simp only [Option.map_some'] at h
          injection h with h; subst h
          simpa using ih hk

theorem scanToGt_lt {q : Option Char} {l : List Char} {k : Nat} (h : scanToGt q l = some k) :
    k < l.length := by
  obtain ⟨rest, hr⟩ := scanToGt_gt h
  have : (l.drop k).length = l.length - k := List.length_drop _ _
  rw [hr] at this
  simp only [List.length_cons] at this
  omega

/-! ### Bounds of the shared tag-parsing primitive -/

theorem parse_c_tag_bounds {html : List Char} {s : Nat} {tag : ParsedTag}
    (h : parse_c_tag html s = .ok (some tag)) : s < tag.end_ ∧ tag.end_ ≤ html.length := by
  simp only [parse_c_tag] at h
  repeat' split at h
  all_goals
    first
    | exact Except.noConfusion h fun h2 => Option.noConfusion h2
    | exact Except.noConfusion h
    | (injection h with h2
       injection h2 with h3
       subst h3
       rename scanToGt _ _ = some _ => hscan
       have hoff := scanToGt_lt hscan
       rw [List.length_drop] at hoff
       refine ⟨?_, ?_⟩ <;> dsimp only <;> omega)


/-! ### Characters of parsed fields come from the scanned text -/

/-- All characters of an attribute occur in the given source text. -/
def attrOk (src : List Char) (a : Attribute) : Prop :=
  (∀ c ∈ a.key, c ∈ src) ∧ ∀ v, a.value = some v → ∀ c ∈ v, c ∈ src

theorem attrOk_mono {src src' : List Char} {a : Attribute}
    (hsub : ∀ c ∈ src, c ∈ src') (h : attrOk src a) : attrOk src' a :=
  ⟨fun c hc => hsub c (h.1 c hc), fun v hv c hc => hsub c (h.2 v hv c hc)⟩

theorem parse_attributes_go_chars (attrs : List Char) :
    ∀ fuel index acc, (∀ a ∈ acc, attrOk attrs a) →
      ∀ a ∈ parse_attributes_go attrs fuel index acc, attrOk attrs a := by
  intro fuel
  induction fuel with
  | zero => intro index acc hacc; simpa only [parse_attributes_go] using hacc
  | succ fuel ih =>
    intro index acc hacc
    have hpush : ∀ (a2 b2 a3 b3 : Nat),
        ∀ a ∈ acc ++ [⟨sliceL attrs a2 b2, some (sliceL attrs a3 b3)⟩], attrOk attrs a := by
      intro a2 b2 a3 b3 a ha
      rcases List.mem_append.mp ha with ha | ha
      · exact hacc a ha
      · rw [List.mem_singleton] at ha
        subst ha
        exact ⟨fun c hc => mem_sliceL _ hc, fun v hv c hc => by
          injection hv with hv; subst hv; exact mem_sliceL _ hc⟩
    have hpushN : ∀ (a2 b2 : Nat),
        ∀ a ∈ acc ++ [⟨sliceL attrs a2 b2, none⟩], attrOk attrs a := by
      intro a2 b2 a ha
      rcases List.mem_append.mp ha with ha | ha
      · exact hacc a ha
      · rw [List.mem_singleton] at ha
        subst ha
        exact ⟨fun c hc => mem_sliceL _ hc, fun v hv => Option.noConfusion hv⟩
    simp only [parse_attributes_go]
    repeat' split
    all_goals
      first
      | exact hacc
      | apply hpushN
      | apply hpush
      | (apply ih; first | apply hpushN | apply hpush)

/-- parse_attributes of the source only produces characters of its input. -/
theorem parse_attributes_chars {attrs : List Char} :
    ∀ a ∈ parse_attributes attrs, attrOk attrs a :=
  parse_attributes_go_chars attrs _ 0 [] (by simp)

set_option maxHeartbeats 800000 in
/-- The fields original, name and attrs_repr of a parsed tag are built from
characters of the scanned text. -/
theorem parse_c_tag_chars {html : List Char} {s : Nat} {tag : ParsedTag}
    (h : parse_c_tag html s = .ok (some tag)) :
    (∀ c ∈ tag.original, c ∈ html) ∧ (∀ c ∈ tag.name, c ∈ html) ∧
    ∀ c ∈ tag.attrs_repr, c ∈ html := by
  simp only [parse_c_tag] at h
  repeat' split at h
  all_goals
    first
    | exact Except.noConfusion h fun h2 => Option.noConfusion h2
    | exact Except.noConfusion h
    | (injection h with h2
       injection h2 with h3
       subst h3
       refine ⟨fun c hc => mem_sliceL _ hc, fun c hc => mem_sliceL _ hc, ?_⟩
       intro c hc
       first
       | exact mem_sliceL _ (mem_dropTrailWs _ hc)
       | exact mem_sliceL _ (mem_dropTrailWs _ (List.dropLast_subset _ (mem_dropTrailWs _ hc)))
       | exact absurd hc (List.not_mem_nil c))

set_option maxHeartbeats 800000 in
/-- A parsed tag's attribute list is the attribute sub-parse of its raw
attribute text (for closing tags both are empty). -/
theorem parse_c_tag_attributes_eq {html : List Char} {s : Nat} {tag : ParsedTag}
    (h : parse_c_tag html s = .ok (some tag)) :
    tag.attributes = parse_attributes tag.attrs_repr := by
  simp only [parse_c_tag] at h
  repeat' split at h
  all_goals
    first
    | exact Except.noConfusion h fun h2 => Option.noConfusion h2
    | exact Except.noConfusion h
    | (injection h with h2
       injection h2 with h3
       subst h3
       first
       | (dsimp only; done)
       | rfl)

/-- The attributes of a parsed tag are built from characters of the scanned
text. -/
theorem parse_c_tag_attrs_chars {html : List Char} {s : Nat} {tag : ParsedTag}
    (h : parse_c_tag html s = .ok (some tag)) : ∀ a ∈ tag.attributes, attrOk html a := by
  rw [parse_c_tag_attributes_eq h]
  exact fun a ha => attrOk_mono (parse_c_tag_chars h).2.2 (parse_attributes_chars a ha)

/-! ### Error classification of the pipeline -/

theorem build_py_error_starts (msg html : List Char) (p : Nat) :
    startsWithL ("Error in template at line ".data) (build_py_error msg html p) = true := by
  rw [startsWithL_iff]
  refine ⟨(Nat.repr ((html.take p).count '\n' + 1)).data ++ ": ".data ++ msg, ?_⟩
  simp [build_py_error, List.append_assoc]

/-- Every error of the variable-declaration extractor is either one of its
three fixed c-vars messages or a line-prefixed message built by
build_py_error (the fuel hypotheses are satisfied by the wrapper). -/
theorem process_c_vars_go_errors {html : List Char} :
    ∀ fuel index vc out e, index ≤ html.length → html.length < fuel + index →
      process_c_vars_go html fuel index vc out = .error e →
      startsWithL ("Error in template at line ".data) e = true ∨
      e = msgOrphanCVars ∨ e = msgMultipleCVars ∨ e = msgMissingCVarsClose := by
  intro fuel
  induction fuel with
  | zero => intro index vc out e h1 h2 h3; omega
  | succ fuel ih =>
    intro index vc out e h1 h2 h3
    simp only [process_c_vars_go] at h3
    cases hfind : findSub ("<c-vars".data) (html.drop index) with
    | none =>
      rw [hfind] at h3
      exact absurd h3 (by simp)
    | some pos =>
      rw [hfind] at h3
      have hposb := findSub_bound hfind
      rw [List.length_drop] at hposb
      have h7 : ("<c-vars".data).length = 7 := by decide
      rw [h7] at hposb
      dsimp only at h3
      cases hparse : parse_c_tag html (index + pos) with
      | error msg =>
        rw [hparse] at h3
        injection h3 with h3
        subst h3
        exact Or.inl (build_py_error_starts _ _ _)
      | ok otag =>
        rw [hparse] at h3
        cases otag with
        | none =>
          dsimp only at h3
          exact ih (index + pos + 1) _ _ e (by omega) (by omega) h3
        | some tag =>
          obtain ⟨hlt, hle⟩ := parse_c_tag_bounds hparse
          dsimp only at h3
          split at h3
          · exact ih tag.end_ _ _ e (by omega) (by omega) h3
          · split at h3
            · injection h3 with h3; subst h3; exact Or.inr (Or.inl rfl)
            · split at h3
              · injection h3 with h3; subst h3; exact Or.inr (Or.inr (Or.inl rfl))
              · split at h3
                · exact ih tag.end_ _ _ e (by omega) (by omega) h3
                · cases hclose : findSub ("</c-vars>".data) (html.drop tag.end_) with
                  | none =>
                    rw [hclose] at h3
                    injection h3 with h3
                    subst h3
                    exact Or.inr (Or.inr (Or.inr rfl))
                  | some crel =>
                    rw [hclose] at h3
                    have hcb := findSub_bound hclose
                    rw [List.length_drop] at hcb
                    have h9 : ("</c-vars>".data).length = 9 := by decide
                    rw [h9] at hcb
                    rw [h9] at h3
                    exact ih _ _ _ e (by omega) (by omega) h3

/-- Every error of the tag rewriter is a line-prefixed message built by
build_py_error. -/
theorem collect_go_errors {html : List Char} :
    ∀ fuel index reps deps seen e, index ≤ html.length → html.length < fuel + index →
      collect_go html fuel index reps deps seen = .error e →
      startsWithL ("Error in template at line ".data) e = true := by
  intro fuel
  induction fuel with
  | zero => intro index reps deps seen e h1 h2 h3; omega
  | succ fuel ih =>
    intro index reps deps seen e h1 h2 h3
    simp only [collect_go] at h3
    split at h3
    · cases hfind : findSub ("<".data) (html.drop index) with
      | none =>
        rw [hfind] at h3
        exact absurd h3 (by simp)
      | some rel =>
        rw [hfind] at h3
        have hposb := findSub_bound hfind
        rw [List.length_drop] at hposb
        have h1l : ("<".data).length = 1 := by decide
        rw [h1l] at hposb
        dsimp only at h3
        cases hparse : parse_c_tag html (index + rel) with
        | error msg =>
          rw [hparse] at h3
          injection h3 with h3
          subst h3
          exact build_py_error_starts _ _ _
        | ok otag =>
          rw [hparse] at h3
          cases otag with
          | none =>
            dsimp only at h3
            exact ih (index + rel + 1) _ _ _ e (by omega) (by omega) h3
          | some tag =>
            obtain ⟨hlt, hle⟩ := parse_c_tag_bounds hparse
            dsimp only at h3
            split at h3
            · exact ih tag.end_ _ _ _ e (by omega) (by omega) h3
            · split at h3
              · exact ih tag.end_ _ _ _ e (by omega) (by omega) h3
              · split at h3
                · cases hslot : process_slot tag with
                  | error msg =>
                    rw [hslot] at h3
                    injection h3 with h3
                    subst h3
                    exact build_py_error_starts _ _ _
                  | ok repl =>
                    rw [hslot] at h3
                    exact ih tag.end_ _ _ _ e (by omega) (by omega) h3
                · cases hcomp : process_component tag with
                  | error msg =>
                    rw [hcomp] at h3
                    injection h3 with h3
                    subst h3
                    exact build_py_error_starts _ _ _
                  | ok rd =>
                    rw [hcomp] at h3
                    exact ih tag.end_ _ _ _ e (by omega) (by omega) h3
    · exact absurd h3 (by simp)

/-- Error classification of the whole pipeline: apart from the three fixed
c-vars messages, every error is line-prefixed. -/
theorem process_internal_errors {s e : List Char} (h : process_internal s = .error e) :
    startsWithL ("Error in template at line ".data) e = true ∨
    e = msgOrphanCVars ∨ e = msgMultipleCVars ∨ e = msgMissingCVarsClose := by
  simp only [process_internal] at h
  cases hpcv : process_c_vars (exclude_ignorables s).1 with
  | error e2 =>
    rw [hpcv] at h
    injection h with h
    subst h
    unfold process_c_vars at hpcv
    exact process_c_vars_go_errors _ 0 none [] e2 (by omega) (by omega) hpcv
  | ok vp =>
    rw [hpcv] at h
    dsimp only at h
    cases hcr : collect_replacements vp.2 with
    | error e2 =>
      rw [hcr] at h
      injection h with h
      subst h
      unfold collect_replacements at hcr
      exact Or.inl (collect_go_errors _ 0 [] [] [] e2 (by omega) (by omega) hcr)
    | ok rd =>
      rw [hcr] at h
      exact absurd h (by simp)

theorem process_errors {s e : List Char} (h : process s = .error e) :
    startsWithL ("Error in template at line ".data) e = true ∨
    e = msgOrphanCVars ∨ e = msgMultipleCVars ∨ e = msgMissingCVarsClose := by
  unfold process at h
  cases hpi : process_internal s with
  | error e2 =>
    rw [hpi] at h
    injection h with h
    subst h
    exact process_internal_errors hpi
  | ok r =>
    rw [hpi] at h
    exact absurd h (by simp [Except.map])

/-! ### Dependencies are deduplicated -/

/-- The dependency list accumulated by the tag rewriter stays duplicate-free:
each dependency is pushed only when insertion into the seen set reports it
as new. -/
theorem collect_go_nodup {html : List Char} :
    ∀ fuel index reps deps seen result,
      deps.Nodup → (∀ d ∈ deps, d ∈ seen) →
      collect_go html fuel index reps deps seen = .ok result → result.2.Nodup := by
  intro fuel
  induction fuel with
  | zero => intro _ _ _ _ _ _ _ h; simp [collect_go] at h
  | succ fuel ih =>
    intro index reps deps seen result hnd hsub h
    simp only [collect_go] at h
    split at h
    · cases hfind : findSub ("<".data) (html.drop index) with
      | none =>
        rw [hfind] at h
        injection h with h
        subst h
        exact hnd
      | some rel =>
        rw [hfind] at h
        dsimp only at h
        cases hparse : parse_c_tag html (index + rel) with
        | error msg =>
          rw [hparse] at h
          exact absurd h (by simp)
        | ok otag =>
          rw [hparse] at h
          cases otag with
          | none =>
            dsimp only at h
            exact ih _ _ _ _ _ hnd hsub h
          | some tag =>
            dsimp only at h
            split at h
            · exact ih _ _ _ _ _ hnd hsub h
            · split at h
              · exact ih _ _ _ _ _ hnd hsub h
              · split at h
                · cases hslot : process_slot tag with
                  | error msg =>
                    rw [hslot] at h
                    exact absurd h (by simp)
                  | ok repl =>
                    rw [hslot] at h
                    exact ih _ _ _ _ _ hnd hsub h
                · cases hcomp : process_component tag with
                  | error msg =>
                    rw [hcomp] at h
                    exact absurd h (by simp)
                  | ok rd =>
                    rw [hcomp] at h
                    dsimp only at h
                    cases hdep : rd.2 with
                    | none =>
                      rw [hdep] at h
                      dsimp only at h
                      exact ih _ _ _ _ _ hnd hsub h
                    | some d =>
                      rw [hdep] at h
                      dsimp only at h
                      split at h
                      · exact ih _ _ _ _ _ hnd hsub h
                      · rename_i hcont
                        refine ih _ _ _ _ _ ?_ ?_ h
                        · rw [List.nodup_append]
                          refine ⟨hnd, by simp, fun a ha ha2 => ?_⟩
                          rw [List.mem_singleton] at ha2
                          subst ha2
                          exact hcont (by simpa [List.contains] using List.elem_iff.mpr (hsub a ha))
                        · intro x hx
                          rcases List.mem_append.mp hx with hx | hx
                          · exact List.mem_append_left _ (hsub x hx)
                          · exact List.mem_append_right _ hx
    · injection h with h
      subst h
      exact hnd

/-! ### Character provenance through the rewriting pipeline -/

theorem mem_replaceGo {pat rep : List Char} :
    ∀ {fuel l c}, c ∈ replaceGo fuel pat rep l → c ∈ l ∨ c ∈ rep := by
  intro fuel
  induction fuel with
  | zero => intro l c hc; exact Or.inl (by simpa [replaceGo] using hc)
  | succ fuel ih =>
    intro l c hc
    cases l with
    | nil => simp [replaceGo] at hc
    | cons d rest =>
      simp only [replaceGo] at hc
      split at hc
      · rcases List.mem_append.mp hc with hc | hc
        · exact Or.inr hc
        · rcases ih hc with hc | hc
          · exact Or.inl (List.mem_of_mem_drop hc)
          · exact Or.inr hc
      · rcases List.mem_cons.mp hc with hc | hc
        · exact Or.inl (by simp [hc])
        · rcases ih hc with hc | hc
          · exact Or.inl (List.mem_cons_of_mem _ hc)
          · exact Or.inr hc

theorem mem_joinSep {sep : List Char} :
    ∀ {xs : List (List Char)} {c}, c ∈ joinSep sep xs → c ∈ sep ∨ ∃ x ∈ xs, c ∈ x := by
  intro xs
  induction xs with
  | nil => intro c hc; simp [joinSep] at hc
  | cons x t ih =>
    intro c hc
    cases t with
    | nil =>
      simp only [joinSep] at hc
      exact Or.inr ⟨x, by simp, hc⟩
    | cons y t2 =>
      simp only [joinSep] at hc
      rcases List.mem_append.mp hc with hc | hc
      · rcases List.mem_append.mp hc with hc | hc
        · exact Or.inr ⟨x, by simp, hc⟩
        · exact Or.inl hc
      · rcases ih hc with hc | ⟨z, hz, hcz⟩
        · exact Or.inl hc
        · exact Or.inr ⟨z, by simp [hz], hcz⟩

/-- All characters that the rewriter's directive literals can contribute to
the compiled output (none of them is an underscore). -/
def litChars : List Char :=
  "\x7b% endslot %\x7d".data ++ "\x7b% slot ".data ++ " %\x7d".data ++ "\x7b% endc %\x7d".data ++
  "\x7b% c ".data ++ " ".data ++ "=\"".data ++ "\"".data ++ "\x7b% attr ".data ++
  "\x7b% endattr %\x7d".data ++ "\x7b% vars ".data ++ "\x7b% endvars %\x7d".data

/-- Characters available to the pipeline over a given scanned text. -/
def pipeChar (src : List Char) (c : Char) : Prop := c ∈ src ∨ c ∈ litChars

theorem litSub_endslot : ∀ c ∈ ("\x7b% endslot %\x7d".data : List Char), c ∈ litChars := by decide
theorem litSub_slot : ∀ c ∈ ("\x7b% slot ".data : List Char), c ∈ litChars := by decide
theorem litSub_close : ∀ c ∈ (" %\x7d".data : List Char), c ∈ litChars := by decide
theorem litSub_endc : ∀ c ∈ ("\x7b% endc %\x7d".data : List Char), c ∈ litChars := by decide
theorem litSub_copen : ∀ c ∈ ("\x7b% c ".data : List Char), c ∈ litChars := by decide
theorem litSub_space : ∀ c ∈ (" ".data : List Char), c ∈ litChars := by decide
theorem litSub_eqq : ∀ c ∈ ("=\"".data : List Char), c ∈ litChars := by decide
theorem litSub_q : ∀ c ∈ ("\"".data : List Char), c ∈ litChars := by decide
theorem litSub_attr : ∀ c ∈ ("\x7b% attr ".data : List Char), c ∈ litChars := by decide
theorem litSub_endattr : ∀ c ∈ ("\x7b% endattr %\x7d".data : List Char), c ∈ litChars := by decide
theorem litSub_vars : ∀ c ∈ ("\x7b% vars ".data : List Char), c ∈ litChars := by decide
theorem litSub_endvars : ∀ c ∈ ("\x7b% endvars %\x7d".data : List Char), c ∈ litChars := by decide

theorem build_attribute_strings_chars {src : List Char} {attrs : List Attribute}
    (hat : ∀ a ∈ attrs, attrOk src a) :
    (∀ c ∈ (build_attribute_strings attrs).1, pipeChar src c) ∧
    (∀ c ∈ (build_attribute_strings attrs).2, pipeChar src c) := by
  have hfold : ∀ (l : List Attribute) (st0 : List (List Char) × List Char),
      (∀ a ∈ l, attrOk src a) →
      (∀ x ∈ st0.1, ∀ c ∈ x, pipeChar src c) → (∀ c ∈ st0.2, pipeChar src c) →
      (∀ x ∈ (l.foldl
          (fun (st : List (List Char) × List Char) (a : Attribute) =>
            match a.value with
            | none => (st.1 ++ [a.key], st.2)
            | some value =>
              if should_extract value then
                (st.1, st.2 ++ "\x7b% attr ".data ++ a.key ++ " %\x7d".data ++ value
                       ++ "\x7b% endattr %\x7d".data)
              else
                (st.1 ++ [a.key ++ "=\"".data ++ value ++ "\"".data], st.2)) st0).1,
        ∀ c ∈ x, pipeChar src c) ∧
      (∀ c ∈ (l.foldl
          (fun (st : List (List Char) × List Char) (a : Attribute) =>
            match a.value with
            | none => (st.1 ++ [a.key], st.2)
            | some value =>
              if should_extract value then
                (st.1, st.2 ++ "\x7b% attr ".data ++ a.key ++ " %\x7d".data ++ value
                       ++ "\x7b% endattr %\x7d".data)
              else
                (st.1 ++ [a.key ++ "=\"".data ++ value ++ "\"".data], st.2)) st0).2,
        pipeChar src c) := by
    intro l
    induction l with
    | nil => intro st0 _ h1 h2; exact ⟨h1, h2⟩
    | cons a t ih =>
      intro st0 hl h1 h2
      simp only [List.foldl_cons]
      have ha := hl a (by simp)
      have hlt : ∀ a2 ∈ t, attrOk src a2 := fun a2 h => hl a2 (by simp [h])
      cases hv : a.value with
      | none =>
        have h1n : ∀ x ∈ st0.1 ++ [a.key], ∀ c ∈ x, pipeChar src c := by
          intro x hx
          rcases List.mem_append.mp hx with hx | hx
          · exact h1 x hx
          · rw [List.mem_singleton] at hx
            subst hx
            exact fun c hc => Or.inl (ha.1 c hc)
        exact ih (st0.1 ++ [a.key], st0.2) hlt h1n h2
      | some value =>
        have hval : ∀ c ∈ value, c ∈ src := ha.2 value hv
        by_cases hse : should_extract value = true
        · simp only [hse, if_true]
          have h2n : ∀ c ∈ st0.2 ++ "\x7b% attr ".data ++ a.key ++ " %\x7d".data ++ value
              ++ "\x7b% endattr %\x7d".data, pipeChar src c := by
            intro c hc
            simp only [List.append_assoc, List.mem_append] at hc
            rcases hc with hc | hc | hc | hc | hc | hc
            · exact h2 c hc
            · exact Or.inr (litSub_attr c hc)
            · exact Or.inl (ha.1 c hc)
            · exact Or.inr (litSub_close c hc)
            · exact Or.inl (hval c hc)
            · exact Or.inr (litSub_endattr c hc)
          exact ih _ hlt h1 h2n
        · simp only [hse, if_false]
          have h1n : ∀ x ∈ st0.1 ++ [a.key ++ "=\"".data ++ value ++ "\"".data],
              ∀ c ∈ x, pipeChar src c := by
            intro x hx
            rcases List.mem_append.mp hx with hx | hx
            · exact h1 x hx
            · rw [List.mem_singleton] at hx
              subst hx
              intro c hc
              simp only [List.append_assoc, List.mem_append] at hc
              rcases hc with hc | hc | hc | hc
              · exact Or.inl (ha.1 c hc)
              · exact Or.inr (litSub_eqq c hc)
              · exact Or.inl (hval c hc)
              · exact Or.inr (litSub_q c hc)
          exact ih _ hlt h1n h2
  have hmain := hfold attrs ([], []) hat (by simp) (by simp)
  simp only [build_attribute_strings]
  constructor
  · intro c hc
    split at hc
    · simp at hc
    · rcases List.mem_append.mp hc with hc | hc
      · exact Or.inr (litSub_space c hc)
      · rcases mem_joinSep hc with hc | ⟨x, hx, hcx⟩
        · exact Or.inr (litSub_space c hc)
        · exact hmain.1 x hx c hcx
  · exact hmain.2

theorem process_slot_chars {src : List Char} {tag : ParsedTag} {repl : List Char}
    (hattrs : ∀ a ∈ tag.attributes, attrOk src a)
    (h : process_slot tag = .ok repl) : ∀ c ∈ repl, pipeChar src c := by
  unfold process_slot at h
  split at h
  · injection h with h
    subst h
    exact fun c hc => Or.inr (litSub_endslot c hc)
  · cases hf : tag.attributes.find? (fun a => a.key == "name".data && a.value.isSome) with
    | none =>
      rw [hf] at h
      exact absurd h (by simp)
    | some attr =>
      rw [hf] at h
      dsimp only at h
      cases hv : attr.value with
      | none =>
        rw [hv] at h
        exact absurd h (by simp)
      | some value =>
        rw [hv] at h
        injection h with h
        subst h
        have hval := (hattrs attr (List.mem_of_find?_eq_some hf)).2 value hv
        intro c hc
        rcases List.mem_append.mp hc with hc | hc
        · rcases List.mem_append.mp hc with hc | hc
          · exact Or.inr (litSub_slot c hc)
          · exact Or.inl (hval c hc)
        · exact Or.inr (litSub_close c hc)

theorem process_component_chars {src : List Char} {tag : ParsedTag}
    {rd : List Char × Option (List Char)}
    (hname : ∀ c ∈ tag.name, c ∈ src)
    (hattrs : ∀ a ∈ tag.attributes, attrOk src a)
    (h : process_component tag = .ok rd) : ∀ c ∈ rd.1, pipeChar src c := by
  have hbas := build_attribute_strings_chars hattrs
  have hrepl : ∀ c ∈ "\x7b% c ".data ++ tag.name ++ (build_attribute_strings tag.attributes).1
      ++ " %\x7d".data ++ (build_attribute_strings tag.attributes).2
      ++ (if tag.is_self_closing then "\x7b% endc %\x7d".data else []), pipeChar src c := by
    intro c hc
    simp only [List.append_assoc, List.mem_append] at hc
    rcases hc with hc | hc | hc | hc | hc | hc
    · exact Or.inr (litSub_copen c hc)
    · exact Or.inl (hname c hc)
    · exact hbas.1 c hc
    · exact Or.inr (litSub_close c hc)
    · exact hbas.2 c hc
    · split at hc
      · exact Or.inr (litSub_endc c hc)
      · exact absurd hc (List.not_mem_nil c)
  simp only [process_component] at h
  split at h
  · injection h with h
    subst h
    exact fun c hc => Or.inr (litSub_endc c hc)
  · split at h
    · cases hf : tag.attributes.find? (fun a => a.key == "is".data) with
      | none =>
        rw [hf] at h
        exact absurd h (by simp)
      | some attr =>
        rw [hf] at h
        dsimp only at h
        cases hv : attr.value with
        | none =>
          rw [hv] at h
          exact absurd h (by simp)
        | some value =>
          rw [hv] at h
          dsimp only at h
          split at h
          · injection h with h
            subst h
            exact hrepl
          · injection h with h
            subst h
            exact hrepl
    · split at h
      · injection h with h
        subst h
        exact hrepl
      · injection h with h
        subst h
        exact hrepl

theorem pipeChar_trans {s mid : List Char} (hmid : ∀ c ∈ mid, pipeChar s c) :
    ∀ {c}, pipeChar mid c → pipeChar s c := by
  intro c hc
  rcases hc with hc | hc
  · exact hmid c hc
  · exact Or.inr hc

/-- Replacement strings recorded by the tag rewriter only use characters of
the scanned text and of the directive literals. -/
theorem collect_go_reps_chars {html : List Char} :
    ∀ fuel index reps deps seen result,
      (∀ pr ∈ reps, ∀ c ∈ (pr : List Char × List Char).2, pipeChar html c) →
      collect_go html fuel index reps deps seen = .ok result →
      ∀ pr ∈ result.1, ∀ c ∈ (pr : List Char × List Char).2, pipeChar html c := by
  intro fuel
  induction fuel with
  | zero => intro _ _ _ _ _ _ h; simp [collect_go] at h
  | succ fuel ih =>
    intro index reps deps seen result hreps h
    simp only [collect_go] at h
    split at h
    · cases hfind : findSub ("<".data) (html.drop index) with
      | none =>
        rw [hfind] at h
        injection h with h
        subst h
        exact hreps
      | some rel =>
        rw [hfind] at h
        dsimp only at h
        cases hparse : parse_c_tag html (index + rel) with
        | error msg =>
          rw [hparse] at h
          exact absurd h (by simp)
        | ok otag =>
          rw [hparse] at h
          cases otag with
          | none =>
            dsimp only at h
            exact ih _ _ _ _ _ hreps h
          | some tag =>
            dsimp only at h
            split at h
            · exact ih _ _ _ _ _ hreps h
            · split at h
              · exact ih _ _ _ _ _ hreps h
              · split at h
                · cases hslot : process_slot tag with
                  | error msg =>
                    rw [hslot] at h
                    exact absurd h (by simp)
                  | ok repl =>
                    rw [hslot] at h
                    refine ih _ _ _ _ _ ?_ h
                    intro pr hpr
                    rcases List.mem_append.mp hpr with hpr | hpr
                    · exact hreps pr hpr
                    · rw [List.mem_singleton] at hpr
                      subst hpr
                      exact process_slot_chars (parse_c_tag_attrs_chars hparse) hslot
                · cases hcomp : process_component tag with
                  | error msg =>
                    rw [hcomp] at h
                    exact absurd h (by simp)
                  | ok rd =>
                    rw [hcomp] at h
                    dsimp only at h
                    refine ih _ _ _ _ _ ?_ h
                    intro pr hpr
                    rcases List.mem_append.mp hpr with hpr | hpr
                    · exact hreps pr hpr
                    · rw [List.mem_singleton] at hpr
                      subst hpr
                      exact process_component_chars (parse_c_tag_chars hparse).2.1
                        (parse_c_tag_attrs_chars hparse) hcomp
    · injection h with h
      subst h
      exact hreps

/-- Applying the recorded replacements preserves character provenance. -/
theorem foldl_replaceAll_chars {src : List Char} :
    ∀ (prs : List (List Char × List Char)) (init : List Char),
      (∀ c ∈ init, pipeChar src c) →
      (∀ pr ∈ prs, ∀ c ∈ (pr : List Char × List Char).2, pipeChar src c) →
      ∀ c ∈ prs.foldl (fun acc pr => replaceAll acc pr.1 pr.2) init, pipeChar src c := by
  intro prs
  induction prs with
  | nil => intro init h1 _ c hc; exact h1 c hc
  | cons pr t ih =>
    intro init h1 h2 c hc
    simp only [List.foldl_cons] at hc
    refine ih _ ?_ (fun q hq => h2 q (by simp [hq])) c hc
    intro d hd
    rcases mem_replaceGo hd with hd | hd
    · exact h1 d hd
    · exact h2 pr (by simp) d hd

/-- Without any directive-open brace in the text the ignorable scanner
matches nothing. -/
theorem match_ignorable_none_of_no_brace {html : List Char} (hb : '\x7b' ∉ html) (i : Nat) :
    match_ignorable html i = none := by
  have hsw : ∀ (p : List Char), '\x7b' ∈ p → startsWithL p (html.drop i) = false := by
    intro p hp
    cases h : startsWithL p (html.drop i)
    · rfl
    · exact absurd (List.mem_of_mem_drop (startsWithL_mem h '\x7b' hp)) hb
  simp only [match_ignorable]
  rw [hsw ("\x7b%".data) (by decide), hsw ("\x7b#".data) (by decide), hsw ("\x7b\x7b".data) (by decide)]
  simp

/-- Without any directive-open brace the exclusion pass copies the text
unchanged and records no ignorable region. -/
theorem exclude_go_id {html : List Char} (hb : '\x7b' ∉ html) :
    ∀ fuel index output igs, html.length ≤ fuel + index →
      exclude_go html fuel index output igs = (output ++ html.drop index, igs) := by
  intro fuel
  induction fuel with
  | zero =>
    intro index output igs hle
    have hdrop : html.drop index = [] := List.drop_eq_nil_of_le (by omega)
    simp [exclude_go, hdrop]
  | succ fuel ih =>
    intro index output igs hle
    simp only [exclude_go]
    split
    · rename_i hidx
      rw [match_ignorable_none_of_no_brace hb]
      cases hd : html.drop index with
      | nil =>
        exfalso
        have := List.length_drop index html
        rw [hd] at this
        simp at this
        omega
      | cons ch rest =>
        have h2 : html.drop (index + 1) = rest := by
          have := List.drop_drop 1 index html
          rw [hd] at this
          simpa [Nat.add_comm] using this.symm
        dsimp only
        rw [ih (index + 1) (output ++ [ch]) igs (by omega), h2]
        simp
    · rename_i hidx
      have hdrop : html.drop index = [] := List.drop_eq_nil_of_le (by omega)
      simp [hdrop]

/-- The variable-declaration extractor only emits characters of the scanned
text and of the directive literals, both in its output text and in the
extracted vars header. -/
theorem process_c_vars_go_chars {html : List Char} :
    ∀ fuel index vc out res,
      (∀ v, vc = some v → ∀ c ∈ v, pipeChar html c) →
      (∀ c ∈ out, pipeChar html c) →
      process_c_vars_go html fuel index vc out = .ok res →
      (∀ v, res.1 = some v → ∀ c ∈ v, pipeChar html c) ∧ ∀ c ∈ res.2, pipeChar html c := by
  intro fuel
  induction fuel with
  | zero => intro _ _ _ _ _ _ h; simp [process_c_vars_go] at h
  | succ fuel ih =>
    intro index vc out res hvc hout h
    simp only [process_c_vars_go] at h
    cases hfind : findSub ("<c-vars".data) (html.drop index) with
    | none =>
      rw [hfind] at h
      injection h with h
      subst h
      refine ⟨hvc, ?_⟩
      intro c hc
      rcases List.mem_append.mp hc with hc | hc
      · exact hout c hc
      · exact Or.inl (List.mem_of_mem_drop hc)
    | some pos =>
      rw [hfind] at h
      dsimp only at h
      have hout1 : ∀ c ∈ out ++ sliceL html index (index + pos), pipeChar html c := by
        intro c hc
        rcases List.mem_append.mp hc with hc | hc
        · exact hout c hc
        · exact Or.inl (mem_sliceL _ hc)
      cases hparse : parse_c_tag html (index + pos) with
      | error msg =>
        rw [hparse] at h
        exact absurd h (by simp)
      | ok otag =>
        rw [hparse] at h
        cases otag with
        | none =>
          dsimp only at h
          refine ih _ _ _ _ hvc ?_ h
          intro c hc
          rcases List.mem_append.mp hc with hc | hc
          · exact hout1 c hc
          · exact Or.inl (mem_sliceL _ hc)
        | some tag =>
          dsimp only at h
          split at h
          · refine ih _ _ _ _ hvc ?_ h
            intro c hc
            rcases List.mem_append.mp hc with hc | hc
            · exact hout1 c hc
            · exact Or.inl ((parse_c_tag_chars hparse).1 c hc)
          · split at h
            · exact absurd h (by simp)
            · split at h
              · exact absurd h (by simp)
              · have hvc2 : ∀ v, (some ("\x7b% vars ".data ++ trimL tag.attrs_repr ++ " %\x7d".data) : Option (List Char)) = some v →
                    ∀ c ∈ v, pipeChar html c := by
                  intro v hv c hc
                  injection hv with hv
                  subst hv
                  rcases List.mem_append.mp hc with hc | hc
                  · rcases List.mem_append.mp hc with hc | hc
                    · exact Or.inr (litSub_vars c hc)
                    · exact Or.inl ((parse_c_tag_chars hparse).2.2 c (mem_trimL _ hc))
                  · exact Or.inr (litSub_close c hc)
                split at h
                · exact ih _ _ _ _ hvc2 hout1 h
                · cases hclose : findSub ("</c-vars>".data) (html.drop tag.end_) with
                  | none =>
                    rw [hclose] at h
                    exact absurd h (by simp)
                  | some crel =>
                    rw [hclose] at h
                    exact ih _ _ _ _ hvc2 hout1 h

/-- Character provenance for inputs without a directive-open brace: every
character of a successful compilation comes from the input or from the
directive literals. -/
theorem process_chars_no_brace {s out : List Char} (hb : '\x7b' ∉ s)
    (h : process s = .ok out) : ∀ c ∈ out, pipeChar s c := by
  have hex : exclude_ignorables s = (s, []) := by
    unfold exclude_ignorables
    simpa using exclude_go_id hb (s.length + 1) 0 [] [] (by omega)
  unfold process at h
  cases hpi : process_internal s with
  | error e =>
    rw [hpi] at h
    exact absurd h (by simp [Except.map])
  | ok r =>
    rw [hpi] at h
    injection h with h
    subst h
    simp only [process_internal, hex] at hpi
    cases hpcv : process_c_vars s with
    | error e =>
      rw [hpcv] at hpi
      exact absurd hpi (by simp)
    | ok vp =>
      rw [hpcv] at hpi
      dsimp only at hpi
      have hchar := process_c_vars_go_chars (s.length + 1) 0 none [] vp
        (fun v hv => Option.noConfusion hv) (by simp) hpcv
      cases hcr : collect_replacements vp.2 with
      | error e =>
        rw [hcr] at hpi
        exact absurd hpi (by simp)
      | ok rd =>
        rw [hcr] at hpi
        dsimp only at hpi
        injection hpi with hpi
        subst hpi
        have hcr2 := hcr
        unfold collect_replacements at hcr2
        have hreps : ∀ pr ∈ rd.1, ∀ c ∈ (pr : List Char × List Char).2, pipeChar s c :=
          fun pr hpr c hc => pipeChar_trans hchar.2
            (collect_go_reps_chars (vp.2.length + 1) 0 [] [] [] rd (by simp) hcr2 pr hpr c hc)
        have hc0 : ∀ c ∈ rd.1.foldl (fun acc pr => replaceAll acc pr.1 pr.2) vp.2, pipeChar s c :=
          foldl_replaceAll_chars rd.1 vp.2 hchar.2 hreps
        dsimp only
        simp only [restore_ignorables, List.foldl_nil]
        cases hv1 : vp.1 with
        | none =>
          dsimp only
          exact hc0
        | some vars =>
          dsimp only
          intro c hc
          simp only [List.append_assoc, List.mem_append] at hc
          rcases hc with hc | hc | hc
          · exact hchar.1 vars hv1 c hc
          · exact hc0 c hc
          · exact Or.inr (litSub_endvars c hc)

/-- For brace-free, underscore-free inputs a successful compilation never
contains the placeholder sentinel. -/
theorem process_no_sentinel {s out : List Char} (hb : '\x7b' ∉ s) (hu : '_' ∉ s)
    (h : process s = .ok out) : containsSub ("__COTTON_IGNORE_".data) out = false := by
  have hchars := process_chars_no_brace hb h
  cases hcontains : containsSub ("__COTTON_IGNORE_".data) out
  · rfl
  · exfalso
    unfold containsSub at hcontains
    cases hf : findSub ("__COTTON_IGNORE_".data) out with
    | none =>
      rw [hf] at hcontains
      simp at hcontains
    | some k =>
      have hsw := findSub_some hf
      have hmem : '_' ∈ out := List.mem_of_mem_drop (startsWithL_mem hsw '_' (by decide))
      rcases hchars '_' hmem with hm | hm
      · exact hu hm
      · exact absurd hm (by decide)

/-! ### Structure of str::replace: the text splits into chunks -/

theorem joinSep_cons_head (sep : List Char) (c : Char) (h : List Char) (t : List (List Char)) :
    joinSep sep ((c :: h) :: t) = c :: joinSep sep (h :: t) := by
  cases t with
  | nil => simp [joinSep]
  | cons y t2 => simp [joinSep]

/-- replaceGo rewrites a chunk decomposition: the input is the chunks joined
by the pattern, the output is the same chunks joined by the replacement. -/
theorem replaceGo_chunks (pat rep : List Char) :
    ∀ fuel l, l.length ≤ fuel →
      ∃ chunks : List (List Char), chunks ≠ [] ∧ l = joinSep pat chunks ∧
        replaceGo fuel pat rep l = joinSep rep chunks := by
  intro fuel
  induction fuel with
  | zero =>
    intro l hl
    have : l = [] := List.eq_nil_of_length_eq_zero (by omega)
    subst this
    exact ⟨[[]], by simp, by simp [joinSep], by simp [replaceGo, joinSep]⟩
  | succ fuel ih =>
    intro l hl
    cases l with
    | nil => exact ⟨[[]], by simp, by simp [joinSep], by simp [replaceGo, joinSep]⟩
    | cons c rest =>
      simp only [replaceGo]
      split
      · rename_i hcond
        obtain ⟨hpat, hsw⟩ := hcond
        obtain ⟨r, hr⟩ := (startsWithL_iff pat (c :: rest)).mp hsw
        have hdrop : (c :: rest).drop pat.length = r := by
          rw [hr, List.drop_left]
        have hrlen : r.length ≤ fuel := by
          have h1 : (c :: rest).length = pat.length + r.length := by rw [hr]; simp
          have h2 : 1 ≤ pat.length := by
            cases pat with
            | nil => exact absurd rfl hpat
            | cons p ps => simp
          simp only [List.length_cons] at h1 hl
          omega
        obtain ⟨chunks, hne, hjoin, hrep⟩ := ih r hrlen
        refine ⟨[] :: chunks, by simp, ?_, ?_⟩
        · rw [hr, hjoin]
          cases chunks with
          | nil => exact absurd rfl hne
          | cons ch t =>
            cases t with
            | nil => simp [joinSep]
            | cons y t2 => simp [joinSep]
        · rw [hdrop, hrep]
          cases chunks with
          | nil => exact absurd rfl hne
          | cons ch t =>
            cases t with
            | nil => simp [joinSep]
            | cons y t2 => simp [joinSep]
      · obtain ⟨chunks, hne, hjoin, hrep⟩ := ih rest (by simpa using Nat.le_of_succ_le_succ (by simpa using hl))
        cases chunks with
        | nil => exact absurd rfl hne
        | cons ch t =>
          refine ⟨(c :: ch) :: t, by simp, ?_, ?_⟩
          · rw [joinSep_cons_head, ← hjoin]
          · rw [joinSep_cons_head, ← hrep]

theorem getLast?_mem_self {l : List Char} {a : Char} (h : l.getLast? = some a) : a ∈ l := by
  obtain ⟨hne, heq⟩ := List.mem_getLast?_eq_getLast (l := l) (x := a) (by simp [h])
  exact heq ▸ List.getLast_mem hne

/-- replaceAll keeps a leading segment intact when the pattern cannot start
inside it. -/
theorem replaceAll_keeps_head {pre rest pat rep : List Char}
    (hpat : pat ≠ []) (hh : ∀ hd, pat.head? = some hd → hd ∉ pre) :
    ∃ r2, replaceAll (pre ++ rest) pat rep = pre ++ r2 := by
  obtain ⟨chunks, hne, hjoin, hrep⟩ :=
    replaceGo_chunks pat rep ((pre ++ rest).length + 1) (pre ++ rest) (by omega)
  rw [replaceAll] at *
  cases chunks with
  | nil => exact absurd rfl hne
  | cons c0 t =>
    cases t with
    | nil =>
      simp only [joinSep] at hjoin hrep
      exact ⟨rest, by rw [hrep, ← hjoin]⟩
    | cons c1 t2 =>
      simp only [joinSep] at hjoin hrep
      rw [List.append_assoc] at hjoin hrep
      rcases List.append_eq_append_iff.mp hjoin with ⟨a2, hc0, _⟩ | ⟨c2, hpre, hd⟩
      · subst hc0
        rw [hrep]
        exact ⟨a2 ++ (rep ++ joinSep rep (c1 :: t2)), by simp [List.append_assoc]⟩
      · cases c2 with
        | nil =>
          simp only [List.append_nil] at hpre
          subst hpre
          rw [hrep]
          exact ⟨rep ++ joinSep rep (c1 :: t2), rfl⟩
        | cons x xs =>
          exfalso
          cases pat with
          | nil => exact hpat rfl
          | cons ph pt =>
            have hx : ph = x := by
              have := hd.symm
              rw [List.cons_append] at this
              injection this with h1 _
              exact h1.symm  
            apply hh ph rfl
            rw [hpre, hx]
            exact List.mem_append_right _ (by simp)

theorem joinSep_last_decomp (sep : List Char) :
    ∀ (c0 : List Char) (t : List (List Char)),
      ∃ front last, joinSep sep (c0 :: t) = front ++ last ∧
        (c0 :: t).getLast? = some last ∧ (front = [] ∨ ∃ f2, front = f2 ++ sep) := by
  intro c0 t
  induction t generalizing c0 with
  | nil => exact ⟨[], c0, by simp [joinSep], by simp, Or.inl rfl⟩
  | cons c1 t2 ih =>
    obtain ⟨front, last, hj, hg, hd⟩ := ih c1
    refine ⟨c0 ++ sep ++ front, last, ?_, ?_, ?_⟩
    · simp only [joinSep]
      rw [hj]
      simp [List.append_assoc]
    · simpa using hg
    · rcases hd with hd | ⟨f2, hf2⟩
      · exact Or.inr ⟨c0, by simp [hd]⟩
      · exact Or.inr ⟨c0 ++ sep ++ f2, by simp [hf2, List.append_assoc]⟩

/-- replaceAll keeps a trailing segment intact when the pattern cannot end
inside it. -/
theorem replaceAll_keeps_tail {front suf pat rep : List Char}
    (hpat : pat ≠ []) (hl : ∀ lc, pat.getLast? = some lc → lc ∉ suf) :
    ∃ f2, replaceAll (front ++ suf) pat rep = f2 ++ suf := by
  obtain ⟨chunks, hne, hjoin, hrep⟩ :=
    replaceGo_chunks pat rep ((front ++ suf).length + 1) (front ++ suf) (by omega)
  rw [replaceAll] at *
  cases chunks with
  | nil => exact absurd rfl hne
  | cons c0 t =>
    obtain ⟨F, last, hFj, hFg, hFd⟩ := joinSep_last_decomp pat c0 t
    obtain ⟨F2, last2, hF2j, hF2g, _⟩ := joinSep_last_decomp rep c0 t
    have hlast2 : last = last2 := by
      rw [hFg] at hF2g
      injection hF2g
    subst hlast2
    rw [hFj] at hjoin
    have hgoal : ∃ l0, last = l0 ++ suf := by
      rcases List.append_eq_append_iff.mp hjoin with ⟨a2, hF, hsuf⟩ | ⟨c2, hfront, hlast⟩
      · cases a2 with
        | nil =>
          simp only [List.nil_append] at hsuf
          exact ⟨[], by rw [hsuf]; simp⟩
        | cons x xs =>
          exfalso
          rcases hFd with hF0 | ⟨f2, hf2⟩
          · rw [hF0] at hF
            exact absurd hF.symm (by simp)
          · obtain ⟨lc, hlc⟩ : ∃ lc, pat.getLast? = some lc := by
              cases hgl : pat.getLast? with
              | none => exact absurd (List.getLast?_eq_none_iff.mp hgl) hpat
              | some lc => exact ⟨lc, rfl⟩
            apply hl lc hlc
            have hFlast : F.getLast? = some lc := by
              rw [hf2, List.getLast?_append_of_ne_nil _ hpat, hlc]
            have hFlast2 : F.getLast? = (x :: xs).getLast? := by
              rw [hF, List.getLast?_append_of_ne_nil _ (by simp)]
            have hmem : lc ∈ x :: xs := by
              apply getLast?_mem_self
              rw [← hFlast2, hFlast]
            rw [hsuf]
            exact List.mem_append_left _ hmem
      · exact ⟨c2, hlast⟩
    obtain ⟨l0, hl0⟩ := hgoal
    rw [hrep, hF2j, hl0]
    exact ⟨F2 ++ l0, by simp [List.append_assoc]⟩

/-! ### The vars header and terminator survive restoration -/

theorem placeholderFor_head (n : Nat) : (placeholderFor n).head? = some '_' := by
  unfold placeholderFor
  rw [List.append_assoc, List.head?_append_of_ne_nil _ (by decide)]
  decide

theorem placeholderFor_last (n : Nat) : (placeholderFor n).getLast? = some '_' := by
  unfold placeholderFor
  rw [List.getLast?_append_of_ne_nil _ (by decide)]
  decide

theorem placeholderFor_ne_nil (n : Nat) : placeholderFor n ≠ [] := by
  unfold placeholderFor
  simp

theorem exclude_go_placeholders {html : List Char} :
    ∀ fuel index output igs,
      (∀ ig ∈ igs, ∃ n, ig.placeholder = placeholderFor n) →
      ∀ ig ∈ (exclude_go html fuel index output igs).2, ∃ n, ig.placeholder = placeholderFor n := by
  intro fuel
  induction fuel with
  | zero => intro index output igs h; simpa [exclude_go] using h
  | succ fuel ih =>
    intro index output igs h
    simp only [exclude_go]
    split
    · cases hm : match_ignorable html index with
      | none =>
        cases hd : html.drop index with
        | nil => simpa using h
        | cons ch rest => exact ih _ _ _ h
      | some pr =>
        cases pr with
        | mk e content =>
          refine ih _ _ _ ?_
          intro ig hig
          rcases List.mem_append.mp hig with hig | hig
          · exact h ig hig
          · rw [List.mem_singleton] at hig
            subst hig
            exact ⟨igs.length, rfl⟩
    · simpa using h

theorem process_c_vars_go_format {html : List Char} :
    ∀ fuel index vc out res,
      (∀ v, vc = some v → ∃ mid, v = "\x7b% vars ".data ++ mid ++ " %\x7d".data) →
      process_c_vars_go html fuel index vc out = .ok res →
      ∀ v, res.1 = some v → ∃ mid, v = "\x7b% vars ".data ++ mid ++ " %\x7d".data := by
  intro fuel
  induction fuel with
  | zero => intro _ _ _ _ _ h; simp [process_c_vars_go] at h
  | succ fuel ih =>
    intro index vc out res hvc h
    simp only [process_c_vars_go] at h
    cases hfind : findSub ("<c-vars".data) (html.drop index) with
    | none =>
      rw [hfind] at h
      injection h with h
      subst h
      exact hvc
    | some pos =>
      rw [hfind] at h
      dsimp only at h
      cases hparse : parse_c_tag html (index + pos) with
      | error msg =>
        rw [hparse] at h
        exact absurd h (by simp)
      | ok otag =>
        rw [hparse] at h
        cases otag with
        | none =>
          dsimp only at h
          exact ih _ _ _ _ hvc h
        | some tag =>
          dsimp only at h
          split at h
          · exact ih _ _ _ _ hvc h
          · split at h
            · exact absurd h (by simp)
            · split at h
              · exact absurd h (by simp)
              · have hvc2 : ∀ v,
                    (some ("\x7b% vars ".data ++ trimL tag.attrs_repr ++ " %\x7d".data) : Option (List Char)) = some v →
                    ∃ mid, v = "\x7b% vars ".data ++ mid ++ " %\x7d".data := by
                  intro v hv
                  injection hv with hv
                  exact ⟨trimL tag.attrs_repr, hv.symm⟩
                split at h
                · exact ih _ _ _ _ hvc2 h
                · cases hclose : findSub ("</c-vars>".data) (html.drop tag.end_) with
                  | none =>
                    rw [hclose] at h
                    exact absurd h (by simp)
                  | some crel =>
                    rw [hclose] at h
                    exact ih _ _ _ _ hvc2 h

theorem restore_keeps_affixes {pre suf : List Char}
    (hpre : '_' ∉ pre) (hsuf : '_' ∉ suf) :
    ∀ (igs : List Ignorable) (x : List Char),
      (∀ ig ∈ igs, ∃ n, ig.placeholder = placeholderFor n) →
      (∃ r, x = pre ++ r) → (∃ f, x = f ++ suf) →
      (∃ r, restore_ignorables x igs = pre ++ r) ∧ ∃ f, restore_ignorables x igs = f ++ suf := by
  intro igs
  induction igs with
  | nil => intro x _ h1 h2; exact ⟨h1, h2⟩
  | cons ig t ih =>
    intro x hwf h1 h2
    obtain ⟨n, hn⟩ := hwf ig (by simp)
    obtain ⟨r, hr⟩ := h1
    obtain ⟨f, hf⟩ := h2
    simp only [restore_ignorables, List.foldl_cons]
    have hstep1 : ∃ r2, replaceAll x ig.placeholder
        (if startsWithL ("\x7b% cotton_verbatim".data) (ig.content.dropWhile chWs) = true
         then extract_verbatim_inner ig.content else ig.content) = pre ++ r2 := by
      rw [hr]
      exact replaceAll_keeps_head (by rw [hn]; exact placeholderFor_ne_nil n)
        (by intro hd hhd; rw [hn, placeholderFor_head] at hhd; injection hhd with hhd; rw [← hhd]; exact hpre)
    have hstep2 : ∃ f2, replaceAll x ig.placeholder
        (if startsWithL ("\x7b% cotton_verbatim".data) (ig.content.dropWhile chWs) = true
         then extract_verbatim_inner ig.content else ig.content) = f2 ++ suf := by
      rw [hf]
      exact replaceAll_keeps_tail (by rw [hn]; exact placeholderFor_ne_nil n)
        (by intro lc hlc; rw [hn, placeholderFor_last] at hlc; injection hlc with hlc; rw [← hlc]; exact hsuf)
    exact ih _ (fun ig2 hig2 => hwf ig2 (by simp [hig2])) hstep1 hstep2

/-- When the pipeline succeeds and the extractor found a vars tag, the
compiled output opens with the vars directive and closes with the endvars
terminator. -/
theorem process_vars_affixes {s out v rest : List Char}
    (hpcv : process_c_vars (exclude_ignorables s).1 = .ok (some v, rest))
    (h : process s = .ok out) :
    (∃ r, out = "\x7b% vars".data ++ r) ∧ ∃ f, out = f ++ "\x7b% endvars %\x7d".data := by
  unfold process at h
  cases hpi : process_internal s with
  | error e =>
    rw [hpi] at h
    exact absurd h (by simp [Except.map])
  | ok r =>
    rw [hpi] at h
    injection h with h
    subst h
    simp only [process_internal] at hpi
    rw [hpcv] at hpi
    dsimp only at hpi
    cases hcr : collect_replacements rest with
    | error e =>
      rw [hcr] at hpi
      exact absurd hpi (by simp)
    | ok rd =>
      rw [hcr] at hpi
      dsimp only at hpi
      injection hpi with hpi
      subst hpi
      dsimp only
      obtain ⟨mid, hmid⟩ := process_c_vars_go_format ((exclude_ignorables s).1.length + 1) 0 none []
        (some v, rest) (fun v2 hv2 => Option.noConfusion hv2) hpcv v rfl
      have hsplit : ("\x7b% vars ".data : List Char) = "\x7b% vars".data ++ [' '] := by decide
      have hpre : ∃ r2, v ++ rd.1.foldl (fun acc pr => replaceAll acc pr.1 pr.2) rest
          ++ "\x7b% endvars %\x7d".data = "\x7b% vars".data ++ r2 := by
        refine ⟨' ' :: (mid ++ " %\x7d".data ++ (rd.1.foldl (fun acc pr => replaceAll acc pr.1 pr.2) rest
          ++ "\x7b% endvars %\x7d".data)), ?_⟩
        rw [hmid, hsplit]
        simp [List.append_assoc]
      have hsuf : ∃ f2, v ++ rd.1.foldl (fun acc pr => replaceAll acc pr.1 pr.2) rest
          ++ "\x7b% endvars %\x7d".data = f2 ++ "\x7b% endvars %\x7d".data := by
        exact ⟨v ++ rd.1.foldl (fun acc pr => replaceAll acc pr.1 pr.2) rest, by simp [List.append_assoc]⟩
      exact restore_keeps_affixes (by decide) (by decide) (exclude_ignorables s).2 _
        (exclude_go_placeholders _ 0 [] [] (by simp)) hpre hsuf

/-! ### The attribute sub-parser accepts a trailing valueless equals sign -/

theorem parse_attributes_trailing_eq (k w : List Char) (hk : k ≠ [])
    (hkc : ∀ c ∈ k, chWs c = false ∧ (c == '=') = false)
    (hwc : ∀ c ∈ w, chWs c = true) :
    parse_attributes (k ++ '=' :: w) = [⟨k, none⟩] := by
  have hlen : (k ++ '=' :: w).length = k.length + (w.length + 1) := by simp
  have hkpos : 0 < k.length := List.length_pos.mpr hk
  have f1 : skip_whitespace (k ++ '=' :: w) 0 = 0 := by
    unfold skip_whitespace
    rw [List.drop_zero]
    cases k with
    | nil => exact absurd rfl hk
    | cons kh kt =>
      simp only [List.cons_append, countWhile, (hkc kh (by simp)).1]
      simp
  have f2 : countWhile (fun c => !(chWs c || c == '=')) (k ++ '=' :: w) = k.length := by
    refine countWhile_append_stop w (fun c hc => ?_) (by decide)
    simp [(hkc c hc).1, (hkc c hc).2]
  have f3 : (k ++ '=' :: w).drop k.length = '=' :: w := List.drop_left k ('=' :: w)
  have hws : chWs '=' = false := by decide
  have f4 : skip_whitespace (k ++ '=' :: w) k.length = k.length := by
    unfold skip_whitespace
    rw [f3]
    simp [countWhile, hws]
  have f5 : (k ++ '=' :: w).drop (k.length + 1) = w := by
    simp
  have f6 : skip_whitespace (k ++ '=' :: w) (k.length + 1) = k.length + 1 + w.length := by
    unfold skip_whitespace
    rw [f5, countWhile_all hwc]
  have f7 : sliceL (k ++ '=' :: w) 0 k.length = k := by
    unfold sliceL
    rw [List.drop_zero, Nat.sub_zero, List.take_left]
  unfold parse_attributes
  simp only [parse_attributes_go, List.drop_zero]
  rw [if_pos (by omega : (0:Nat) < (k ++ '=' :: w).length)]
  rw [f1]
  rw [if_neg (by omega : ¬ (0 ≥ (k ++ '=' :: w).length))]
  simp only [List.drop_zero]
  rw [f2]
  rw [if_neg (by omega : ¬ (0 + k.length = 0))]
  simp only [Nat.zero_add, f4, f3, f6, f7]
  rw [if_pos (by omega : k.length + 1 + w.length ≥ (k ++ '=' :: w).length)]
  simp

/-! ### The verbatim-block family with an arbitrary whitespace run -/

/-- The fixed text that follows the opening delimiter and its whitespace run
in the verbatim-block family of inputs. -/
def c4Tail : List Char := "cotton_verbatim %\x7d<c-foo>\x7b% endcotton_verbatim %\x7d".data

/-- The verbatim-block input with an arbitrary whitespace run w between the
opening brace-percent and the keyword. -/
def c4Input (w : List Char) : List Char := "\x7b%".data ++ w ++ c4Tail

theorem c4cons (w : List Char) : c4Input w = '\x7b' :: '%' :: (w ++ c4Tail) := rfl

theorem c4len (w : List Char) : (c4Input w).length = 51 + w.length := by
  rw [c4cons]
  simp only [List.length_cons, List.length_append,
    show c4Tail.length = 49 from rfl]
  omega

theorem drop_append_len (a b : List Char) (k : Nat) :
    (a ++ b).drop (a.length + k) = b.drop k := by
  induction a with
  | nil => simp
  | cons c t ih =>
    simp only [List.cons_append, List.length_cons]
    rw [show t.length + 1 + k = (t.length + k) + 1 from by omega, List.drop_succ_cons]
    exact ih

theorem c4drop (w : List Char) (m k : Nat) (h : m = 2 + w.length + k) :
    (c4Input w).drop m = c4Tail.drop k := by
  subst h
  rw [show c4Input w = ('\x7b' :: '%' :: w) ++ c4Tail from by rw [c4cons]; simp,
      show 2 + w.length + k = ('\x7b' :: '%' :: w).length + k from by
        simp only [List.length_cons]; omega,
      drop_append_len]

theorem c4_match (w : List Char) (hw : ∀ c ∈ w, chWs c = true) :
    match_ignorable (c4Input w) 0 = some ((c4Input w).length, c4Input w) := by
  have hd0 : (c4Input w).drop 0 = c4Input w := rfl
  have hsw0 : startsWithL ("\x7b%".data) (c4Input w) = true := rfl
  have hd2 : (c4Input w).drop 2 = w ++ c4Tail := rfl
  have hcw : countWhile chWs (w ++ c4Tail) = w.length := by
    rw [show c4Tail = 'c' :: c4Tail.drop 1 from rfl]
    exact countWhile_append_stop _ hw (by decide)
  have hskipw : skip_whitespace (c4Input w) 2 = 2 + w.length := by
    simp only [skip_whitespace, hd2, hcw]
  have hkw : startsWithL ("cotton_verbatim".data) ((c4Input w).drop (2 + w.length)) = true := by
    rw [c4drop w _ 0 (by omega)]
    decide
  have hskid : skip_identifier (c4Input w) (2 + w.length + ("cotton_verbatim".data).length)
      = 17 + w.length := by
    simp only [skip_identifier,
      show (("cotton_verbatim".data : List Char)).length = 15 from rfl]
    rw [c4drop w _ 15 (by omega), show countWhile chIdent (c4Tail.drop 15) = 0 from rfl]
    omega
  have hfind : findSub ("\x7b%".data) ((c4Input w).drop (17 + w.length)) = some 10 := by
    rw [c4drop w _ 15 (by omega)]
    decide
  have hskw2 : skip_whitespace (c4Input w) (17 + w.length + 10 + 2) = 30 + w.length := by
    simp only [skip_whitespace]
    rw [c4drop w _ 27 (by omega), show countWhile chWs (c4Tail.drop 27) = 1 from rfl]
    omega
  have hkw2 : startsWithL ("endcotton_verbatim".data) ((c4Input w).drop (30 + w.length)) = true := by
    rw [c4drop w _ 28 (by omega)]
    decide
  have hskid2 : skip_identifier (c4Input w) (30 + w.length + ("endcotton_verbatim".data).length)
      = 48 + w.length := by
    simp only [skip_identifier,
      show (("endcotton_verbatim".data : List Char)).length = 18 from rfl]
    rw [c4drop w _ 46 (by omega), show countWhile chIdent (c4Tail.drop 46) = 0 from rfl]
    omega
  have hskw3 : skip_whitespace (c4Input w) (48 + w.length) = 49 + w.length := by
    simp only [skip_whitespace]
    rw [c4drop w _ 46 (by omega), show countWhile chWs (c4Tail.drop 46) = 1 from rfl]
    omega
  have hclose : startsWithL ("%\x7d".data) ((c4Input w).drop (49 + w.length)) = true := by
    rw [c4drop w _ 47 (by omega)]
    decide
  have hfnbe : find_named_block_end (c4Input w) (17 + w.length) ("endcotton_verbatim".data)
      = some ((c4Input w).length) := by
    simp only [find_named_block_end, find_named_block_end_go]
    rw [if_pos (by rw [c4len]; omega)]
    rw [hfind]
    dsimp only
    rw [hskw2, hkw2]
    simp only [if_pos rfl]
    rw [hskid2, hskw3, hclose]
    simp only [if_pos rfl, if_true]
    rw [c4len]
    simp only [Option.some.injEq]
    omega
  simp only [match_ignorable, hd0, hsw0, Nat.zero_add, hskipw]
  rw [show (['c','o','t','t','o','n','_','v','e','r','b','a','t','i','m'] : List Char)
      = ("cotton_verbatim".data : List Char) from rfl]
  rw [hkw]
  simp only [if_pos rfl, if_true]
  rw [hskid]
  rw [show (['e','n','d','c','o','t','t','o','n','_','v','e','r','b','a','t','i','m'] : List Char)
      = ("endcotton_verbatim".data : List Char) from rfl]
  rw [hfnbe]
  simp only [sliceL, Nat.sub_zero, List.drop_zero, List.take_length]

theorem exclude_go_stop {html : List Char} :
    ∀ fuel index output igs, html.length ≤ index →
      exclude_go html fuel index output igs = (output, igs) := by
  intro fuel index output igs h
  cases fuel with
  | zero => rfl
  | succ f =>
    simp only [exclude_go]
    rw [if_neg (by omega)]

theorem exclude_whole {html : List Char} (hlen : 0 < html.length)
    (h : match_ignorable html 0 = some (html.length, html)) :
    exclude_ignorables html = (placeholderFor 0, [⟨placeholderFor 0, html⟩]) := by
  simp only [exclude_ignorables, exclude_go]
  rw [if_pos hlen, h]
  dsimp only
  rw [exclude_go_stop _ html.length _ _ le_rfl]
  simp

theorem replaceAll_self {pat : List Char} (rep : List Char) (h : pat ≠ []) :
    replaceAll pat pat rep = rep := by
  cases pat with
  | nil => exact absurd rfl h
  | cons c t =>
    have hsw : startsWithL (c :: t) (c :: t) = true := by
      have := startsWithL_self_append (c :: t) []
      simpa using this
    simp only [replaceAll, List.length_cons, replaceGo]
    rw [if_pos ⟨h, hsw⟩]
    rw [show List.drop (t.length + 1) (c :: t) = [] from by
      rw [List.drop_succ_cons]
      exact List.drop_length t]
    simp [replaceGo]

theorem c4testF (w : List Char) (hw : ∀ c ∈ w, chWs c = true) (hne : w ≠ [' ']) :
    startsWithL ("\x7b% cotton_verbatim".data) ((c4Input w).dropWhile chWs) = false := by
  have hdw : (c4Input w).dropWhile chWs = c4Input w := by
    rw [c4cons]; rfl
  rw [hdw, c4cons,
    show ("\x7b% cotton_verbatim".data : List Char)
      = '\x7b' :: '%' :: ' ' :: ("cotton_verbatim".data) from rfl]
  cases w with
  | nil =>
    simp only [List.nil_append]
    decide
  | cons a w2 =>
    simp only [List.cons_append, startsWithL, beq_self_eq_true, Bool.true_and]
    by_cases ha : a = ' '
    · subst ha
      rw [show (' ' == ' ') = true from rfl]
      simp only [Bool.true_and]
      cases w2 with
      | nil => exact absurd rfl hne
      | cons b w3 =>
        have hb : chWs b = true := hw b (by simp)
        have hbc : 'c' ≠ b := by
          intro hbb
          rw [← hbb] at hb
          exact absurd hb (by decide)
        rw [show (['c','o','t','t','o','n','_','v','e','r','b','a','t','i','m'] : List Char)
          = 'c' :: (['o','t','t','o','n','_','v','e','r','b','a','t','i','m'] : List Char) from rfl,
          show (b :: w3).append c4Tail = b :: (w3 ++ c4Tail) from rfl]
        simp only [startsWithL]
        rw [beq_eq_false_iff_ne.mpr hbc]
        simp
    · rw [beq_eq_false_iff_ne.mpr (fun hh => ha hh.symm)]
      simp

theorem c4_process (w : List Char) (hw : ∀ c ∈ w, chWs c = true) :
    process (c4Input w) =
      .ok (if w = [' '] then "<c-foo>".data else c4Input w) := by
  by_cases hsp : w = [' ']
  · subst hsp
    rw [if_pos rfl]
    rfl
  · rw [if_neg hsp]
    have hex : exclude_ignorables (c4Input w)
        = (placeholderFor 0, [⟨placeholderFor 0, c4Input w⟩]) :=
      exclude_whole (by rw [c4len]; omega) (c4_match w hw)
    simp only [process, process_internal]
    rw [hex]
    dsimp only
    rw [show process_c_vars (placeholderFor 0) = .ok (none, placeholderFor 0) from rfl]
    dsimp only
    rw [show collect_replacements (placeholderFor 0) = .ok ([], []) from rfl]
    dsimp only
    simp only [List.foldl_nil, restore_ignorables, List.foldl_cons]
    rw [c4testF w hw hsp]
    simp only [Bool.false_eq_true, if_false]
    rw [replaceAll_self _ (placeholderFor_ne_nil 0)]
    rfl

/-! ### Chunk 1: decimal digits of Nat.repr, block characters, placeholder shape -/

theorem digitChar_digit {m : Nat} (h : m < 10) :
    48 ≤ (Nat.digitChar m).toNat ∧ (Nat.digitChar m).toNat ≤ 57 := by
  interval_cases m <;> decide

theorem toDigitsCore_digits :
    ∀ fuel n acc, (∀ c ∈ acc, 48 ≤ c.toNat ∧ c.toNat ≤ 57) →
      ∀ c ∈ Nat.toDigitsCore 10 fuel n acc, 48 ≤ c.toNat ∧ c.toNat ≤ 57 := by
  intro fuel
  induction fuel with
  | zero =>
    intro n acc hacc
    simpa [Nat.toDigitsCore] using hacc
  | succ f ih =>
    intro n acc hacc
    simp only [Nat.toDigitsCore]
    split
    · intro c hc
      rcases List.mem_cons.mp hc with hc | hc
      · subst hc
        exact digitChar_digit (Nat.mod_lt _ (by omega))
      · exact hacc c hc
    · refine ih _ _ (fun c hc => ?_)
      rcases List.mem_cons.mp hc with hc | hc
      · subst hc
        exact digitChar_digit (Nat.mod_lt _ (by omega))
      · exact hacc c hc

theorem toDigitsCore_ne_nil :
    ∀ fuel n acc, acc ≠ [] → Nat.toDigitsCore 10 fuel n acc ≠ [] := by
  intro fuel
  induction fuel with
  | zero =>
    intro n acc h
    simpa [Nat.toDigitsCore] using h
  | succ f ih =>
    intro n acc h
    simp only [Nat.toDigitsCore]
    split
    · simp
    · exact ih _ _ (by simp)

theorem repr_data_digits (n : Nat) :
    ∀ c ∈ (Nat.repr n).data, 48 ≤ c.toNat ∧ c.toNat ≤ 57 := by
  have h : (Nat.repr n).data = Nat.toDigitsCore 10 (n + 1) n [] := rfl
  rw [h]
  exact toDigitsCore_digits _ _ _ (by simp)

theorem repr_data_ne_nil (n : Nat) : (Nat.repr n).data ≠ [] := by
  have h : (Nat.repr n).data = Nat.toDigitsCore 10 (n + 1) n [] := rfl
  rw [h]
  simp only [Nat.toDigitsCore]
  split
  · simp
  · exact toDigitsCore_ne_nil _ _ _ (by simp)

theorem repr_no_underscore (n : Nat) : ∀ c ∈ (Nat.repr n).data, c ≠ '_' := by
  intro c hc he
  have hd := repr_data_digits n c hc
  rw [he] at hd
  exact absurd hd (by decide)

/-- The characters that can occur inside a placeholder: the underscore, the
capital letters of the sentinel, and decimal digits. -/
def blockChar (c : Char) : Bool :=
  c == '_' || (decide (65 ≤ c.toNat) && decide (c.toNat ≤ 90)) ||
  (decide (48 ≤ c.toNat) && decide (c.toNat ≤ 57))

theorem blockChar_ws {c : Char} (h : chWs c = true) : blockChar c = false := by
  simp only [chWs, Bool.or_eq_true, beq_iff_eq] at h
  rcases h with (((h | h) | h) | h) | h <;> subst h <;> decide

theorem placeholderFor_cons (n : Nat) :
    placeholderFor n = '_' :: '_' :: 'C' :: 'O' :: 'T' :: 'T' :: 'O' :: 'N' :: '_' :: 'I' ::
      'G' :: 'N' :: 'O' :: 'R' :: 'E' :: '_' :: ((Nat.repr n).data ++ ['_', '_']) := rfl

theorem placeholderFor_length (n : Nat) :
    (placeholderFor n).length = (Nat.repr n).data.length + 18 := by
  rw [placeholderFor_cons]
  simp

theorem placeholderFor_blockChars (n : Nat) :
    ∀ c ∈ placeholderFor n, blockChar c = true := by
  intro c hc
  rw [placeholderFor_cons] at hc
  simp only [List.mem_cons, List.mem_append] at hc
  rcases hc with rfl|rfl|rfl|rfl|rfl|rfl|rfl|rfl|rfl|rfl|rfl|rfl|rfl|rfl|rfl|rfl|h
  case _ => decide
  case _ => decide
  case _ => decide
  case _ => decide
  case _ => decide
  case _ => decide
  case _ => decide
  case _ => decide
  case _ => decide
  case _ => decide
  case _ => decide
  case _ => decide
  case _ => decide
  case _ => decide
  case _ => decide
  case _ => decide
  case _ =>
    rcases h with h | h
    · have hd := repr_data_digits n c h
      simp only [blockChar, Bool.or_eq_true, Bool.and_eq_true, decide_eq_true_eq]
      omega
    · rcases h with rfl | h
      · decide
      · rcases h with rfl | h
        · decide
        · exact absurd h (by simp)

/-! ### Chunk 2: the interleaving invariant -/

/-- A text that alternates underscore-free characters with whole placeholder
occurrences whose indices satisfy P. -/
inductive Weave (P : Nat → Prop) : List Char → Prop
  | nil : Weave P []
  | chr {c : Char} {t : List Char} : c ≠ '_' → Weave P t → Weave P (c :: t)
  | ph (i : Nat) {t : List Char} : P i → Weave P t → Weave P (placeholderFor i ++ t)

theorem Weave.mono {P Q : Nat → Prop} (hPQ : ∀ j, P j → Q j) :
    ∀ {l}, Weave P l → Weave Q l := by
  intro l h
  induction h with
  | nil => exact .nil
  | chr hc _ ih => exact .chr hc ih
  | ph i hp _ ih => exact .ph i (hPQ i hp) ih

theorem Weave.append {P : Nat → Prop} :
    ∀ {a b}, Weave P a → Weave P b → Weave P (a ++ b) := by
  intro a b ha hb
  induction ha with
  | nil => simpa using hb
  | chr hc _ ih => exact .chr hc ih
  | ph i hp _ ih =>
    rw [List.append_assoc]
    exact .ph i hp ih

theorem Weave.chars {P : Nat → Prop} : ∀ {l}, (∀ c ∈ l, c ≠ '_') → Weave P l := by
  intro l
  induction l with
  | nil => exact fun _ => .nil
  | cons c t ih =>
    intro h
    exact .chr (h c (by simp)) (ih fun x hx => h x (by simp [hx]))

theorem Weave.tail_of_cons {P : Nat → Prop} {c : Char} {t : List Char}
    (h : Weave P (c :: t)) (hc : c ≠ '_') : Weave P t := by
  cases h with
  | chr _ ht => exact ht
  | ph i hp ht => exact absurd rfl hc

theorem Weave.no_underscore {P : Nat → Prop} (hP : ∀ j, ¬ P j) :
    ∀ {l}, Weave P l → '_' ∉ l := by
  intro l h
  induction h with
  | nil => simp
  | chr hc _ ih =>
    intro hm
    rcases List.mem_cons.mp hm with hm | hm
    · exact hc hm.symm
    · exact ih hm
  | ph i hp => exact absurd hp (hP i)

/-! ### Chunk 3: splitting a weave at a boundary that cannot cut a block -/

theorem Weave.split {P : Nat → Prop} :
    ∀ {l a b : List Char}, Weave P l → l = a ++ b →
      ((a = [] ∨ ∃ c, a.getLast? = some c ∧ blockChar c = false) ∨
       (b = [] ∨ ∃ c t, b = c :: t ∧ blockChar c = false)) →
      Weave P a ∧ Weave P b := by
  intro l a b h
  induction h generalizing a b with
  | nil =>
    intro heq _
    obtain ⟨ha, hb⟩ := List.append_eq_nil.mp heq.symm
    subst ha
    subst hb
    exact ⟨.nil, .nil⟩
  | chr hc ht ih =>
    intro heq hcut
    cases a with
    | nil =>
      simp only [List.nil_append] at heq
      subst heq
      exact ⟨.nil, .chr hc ht⟩
    | cons a0 a2 =>
      rw [List.cons_append] at heq
      injection heq with h1 h2
      subst h1
      rcases hcut with (hA | ⟨d, hd, hdb⟩) | hB
      · exact absurd hA (by simp)
      · cases a2 with
        | nil =>
          simp only [List.getLast?_singleton, Option.some.injEq] at hd
          subst hd
          simp only [List.nil_append] at h2
          subst h2
          exact ⟨.chr hc .nil, ht⟩
        | cons a1 a3 =>
          have hlast : (a1 :: a3).getLast? = some d := by
            rwa [List.getLast?_cons_cons] at hd
          have hres := ih h2 (Or.inl (Or.inr ⟨d, hlast, hdb⟩))
          exact ⟨.chr hc hres.1, hres.2⟩
      · have hres := ih h2 (Or.inr hB)
        exact ⟨.chr hc hres.1, hres.2⟩
  | ph i hp ht ih =>
    intro heq hcut
    rcases List.append_eq_append_iff.mp heq with ⟨a2, ha, hta⟩ | ⟨c2, hph, hb⟩
    · subst ha
      rcases hcut with (hA | ⟨d, hd, hdb⟩) | hB
      · exact absurd (List.append_eq_nil.mp hA).1 (placeholderFor_ne_nil i)
      · cases a2 with
        | nil =>
          exfalso
          rw [List.append_nil] at hd
          rw [placeholderFor_last i] at hd
          injection hd with hd
          subst hd
          exact absurd hdb (by decide)
        | cons x a3 =>
          have hlast : (x :: a3).getLast? = some d := by
            rwa [List.getLast?_append_of_ne_nil _ (by simp)] at hd
          have hres := ih hta (Or.inl (Or.inr ⟨d, hlast, hdb⟩))
          exact ⟨Weave.ph i hp hres.1, hres.2⟩
      · have hres := ih hta (Or.inr hB)
        exact ⟨Weave.ph i hp hres.1, hres.2⟩
    · cases c2 with
      | nil =>
        rw [List.append_nil] at hph
        subst hph
        simp only [List.nil_append] at hb
        subst hb
        refine ⟨?_, ht⟩
        have hres := Weave.ph i hp (Weave.nil (P := P))
        rwa [List.append_nil] at hres
      | cons e c3 =>
        cases a with
        | nil =>
          refine ⟨.nil, ?_⟩
          rw [List.nil_append] at hph
          rw [hb, ← hph]
          exact Weave.ph i hp ht
        | cons a0 a4 =>
          exfalso
          rcases hcut with (hA | ⟨d, hd, hdb⟩) | (hB | ⟨d, t2, hdt, hdb⟩)
          · exact absurd hA (by simp)
          · have hdmem : d ∈ placeholderFor i := by
              rw [hph]
              exact List.mem_append_left _ (getLast?_mem_self hd)
            rw [placeholderFor_blockChars i d hdmem] at hdb
            exact Bool.noConfusion hdb
          · rw [hb] at hB
            exact absurd hB (by simp)
          · rw [hb, List.cons_append] at hdt
            injection hdt with h1 _
            have hdmem : d ∈ placeholderFor i := by
              rw [hph, h1]
              exact List.mem_append_right _ (by simp)
            rw [placeholderFor_blockChars i d hdmem] at hdb
            exact Bool.noConfusion hdb

/-! ### Chunk 3b: boundary utilities -/

theorem countWhile_stop (p : Char → Bool) :
    ∀ l : List Char, l.drop (countWhile p l) = [] ∨
      ∃ c t2, l.drop (countWhile p l) = c :: t2 ∧ p c = false := by
  intro l
  induction l with
  | nil => exact Or.inl rfl
  | cons c t ih =>
    by_cases hc : p c = true
    · simpa [countWhile, hc] using ih
    · refine Or.inr ⟨c, t, ?_, by simpa using hc⟩
      simp [countWhile, hc]

theorem countWhile_take_all (p : Char → Bool) :
    ∀ l : List Char, ∀ c ∈ l.take (countWhile p l), p c = true := by
  intro l
  induction l with
  | nil => simp
  | cons c t ih =>
    by_cases hc : p c = true
    · intro d hd
      simp only [countWhile, hc, if_true, List.take_succ_cons] at hd
      rcases List.mem_cons.mp hd with rfl | hd
      · exact hc
      · exact ih d hd
    · intro d hd
      simp only [countWhile, if_neg hc, List.take_zero] at hd
      exact absurd hd (by simp)

theorem sliceSplit (l : List Char) (a b : Nat) (hab : a ≤ b) :
    l.drop a = sliceL l a b ++ l.drop b := by
  unfold sliceL
  conv_lhs => rw [← List.take_append_drop (b - a) (l.drop a)]
  rw [List.drop_drop, Nat.add_sub_cancel' hab]

theorem sliceL_append (l : List Char) (a b c : Nat) (hab : a ≤ b) (hbc : b ≤ c) :
    sliceL l a b ++ sliceL l b c = sliceL l a c := by
  unfold sliceL
  rw [show c - a = (b - a) + (c - b) from by omega, List.take_add]
  congr 1
  rw [List.drop_drop, Nat.add_sub_cancel' hab]

theorem dropTrailWs_decomp (l : List Char) :
    ∃ sfx, l = dropTrailWs l ++ sfx ∧ ∀ c ∈ sfx, chWs c = true := by
  refine ⟨(l.reverse.takeWhile chWs).reverse, ?_, ?_⟩
  · unfold dropTrailWs
    conv_lhs => rw [← l.reverse_reverse]
    conv_lhs => rw [← List.takeWhile_append_dropWhile (p := chWs) (l := l.reverse)]
    rw [List.reverse_append]
  · intro c hc
    rw [List.mem_reverse] at hc
    exact List.mem_takeWhile_imp hc

theorem Weave.dropTrail {P : Nat → Prop} {l : List Char} (h : Weave P l) :
    Weave P (dropTrailWs l) := by
  obtain ⟨sfx, heq, hws⟩ := dropTrailWs_decomp l
  refine (Weave.split h heq (Or.inr ?_)).1
  cases sfx with
  | nil => exact Or.inl rfl
  | cons c t => exact Or.inr ⟨c, t, rfl, blockChar_ws (hws c (by simp))⟩

theorem startsWithL_head_ne {a c : Char} {ps cs : List Char} (h : a ≠ c) :
    startsWithL (a :: ps) (c :: cs) = false := by
  simp only [startsWithL]
  rw [beq_eq_false_iff_ne.mpr h]
  simp

theorem startsWithL_cons_cons {a : Char} {ps cs : List Char} :
    startsWithL (a :: ps) (a :: cs) = startsWithL ps cs := by
  simp [startsWithL]

theorem getLast?_exists_of_ne_nil {l : List Char} (h : l ≠ []) :
    ∃ c, l.getLast? = some c ∧ c ∈ l := by
  cases hg : l.getLast? with
  | none => exact absurd (List.getLast?_eq_none_iff.mp hg) h
  | some c => exact ⟨c, rfl, getLast?_mem_self hg⟩

/-! ### Chunk 4: stepping str::replace over text -/

theorem replaceGo_head_match {pat rep l : List Char} {fuel : Nat} (hpat : pat ≠ [])
    (hsw : startsWithL pat l = true) :
    replaceGo (fuel + 1) pat rep l = rep ++ replaceGo fuel pat rep (l.drop pat.length) := by
  obtain ⟨r, hr⟩ := (startsWithL_iff pat l).mp hsw
  subst hr
  cases pat with
  | nil => exact absurd rfl hpat
  | cons p ps =>
    rw [List.cons_append]
    simp only [replaceGo]
    rw [if_pos ⟨by simp, by simpa using hsw⟩]

theorem replaceGo_head_no {pat rep : List Char} {c : Char} {t : List Char} {fuel : Nat}
    (h : startsWithL pat (c :: t) = false) :
    replaceGo (fuel + 1) pat rep (c :: t) = c :: replaceGo fuel pat rep t := by
  simp only [replaceGo]
  rw [if_neg (fun hc => absurd hc.2 (by simp [h]))]

theorem replaceGo_fuel {pat rep : List Char} :
    ∀ fuel fuel2 l, l.length < fuel → l.length < fuel2 →
      replaceGo fuel pat rep l = replaceGo fuel2 pat rep l := by
  intro fuel
  induction fuel with
  | zero =>
    intro fuel2 l h1 _
    omega
  | succ f ih =>
    intro fuel2 l h1 h2
    cases fuel2 with
    | zero => omega
    | succ f2 =>
      cases l with
      | nil => rfl
      | cons c rest =>
        cases hsw : startsWithL pat (c :: rest) with
        | false =>
          rw [replaceGo_head_no hsw, replaceGo_head_no hsw]
          simp only [List.length_cons] at h1 h2
          rw [ih f2 rest (by omega) (by omega)]
        | true =>
          by_cases hpat : pat = []
          · subst hpat
            simp only [replaceGo]
            rw [if_neg (by simp), if_neg (by simp)]
            simp only [List.length_cons] at h1 h2
            rw [ih f2 rest (by omega) (by omega)]
          · rw [replaceGo_head_match hpat hsw, replaceGo_head_match hpat hsw]
            have hplen : 1 ≤ pat.length := by
              cases pat with
              | nil => exact absurd rfl hpat
              | cons _ _ => simp
            have hdlen : ((c :: rest).drop pat.length).length = (c :: rest).length - pat.length := by
              simp
            simp only [List.length_cons] at h1 h2
            rw [ih f2 _ (by rw [hdlen]; simp only [List.length_cons]; omega)
              (by rw [hdlen]; simp only [List.length_cons]; omega)]

theorem replaceGo_skip {pat rep : List Char} :
    ∀ (a b : List Char) fuel, (a ++ b).length < fuel →
      (∀ j, j < a.length → startsWithL pat ((a ++ b).drop j) = false) →
      replaceGo fuel pat rep (a ++ b) = a ++ replaceGo (b.length + 1) pat rep b := by
  intro a
  induction a with
  | nil =>
    intro b fuel h _
    simp only [List.nil_append] at h ⊢
    exact replaceGo_fuel fuel (b.length + 1) b h (by omega)
  | cons c a2 ih =>
    intro b fuel h hj
    cases fuel with
    | zero => simp at h
    | succ f =>
      have h0 : startsWithL pat (c :: (a2 ++ b)) = false := by
        have := hj 0 (by simp)
        simpa using this
      rw [List.cons_append, replaceGo_head_no h0, List.cons_append]
      congr 1
      refine ih b f (by simp at h ⊢; omega) (fun j hj2 => ?_)
      have := hj (j + 1) (by simp; omega)
      rw [List.cons_append] at this
      simpa using this

/-! ### Chunk 5: where a placeholder pattern can match inside a weave -/

theorem Weave.no_mixed_match {P : Nat → Prop} {x : Char} (hx : x ≠ '_') :
    ∀ {t}, Weave P t → ∀ (pre r : List Char), (∀ c ∈ pre, c ≠ '_') →
      startsWithL (pre ++ '_' :: x :: r) t = false := by
  intro t h
  induction h with
  | nil =>
    intro pre r _
    cases pre <;> rfl
  | chr hc _ ih =>
    intro pre r hpre
    cases pre with
    | nil =>
      rw [List.nil_append]
      exact startsWithL_head_ne (fun he => hc he.symm)
    | cons p pre2 =>
      rw [List.cons_append]
      simp only [startsWithL]
      rw [ih pre2 r (fun d hd => hpre d (by simp [hd]))]
      simp
  | ph i hp _ ih =>
    intro pre r hpre
    rw [placeholderFor_cons, List.cons_append]
    cases pre with
    | nil =>
      rw [List.nil_append]
      rw [startsWithL_cons_cons]
      exact startsWithL_head_ne hx
    | cons p pre2 =>
      rw [List.cons_append]
      exact startsWithL_head_ne (hpre p (by simp))

theorem digits_match_eq :
    ∀ (dk di : List Char), (∀ c ∈ dk, c ≠ '_') → (∀ c ∈ di, c ≠ '_') →
      ∀ w, startsWithL (dk ++ '_' :: '_' :: []) (di ++ '_' :: '_' :: w) = true → dk = di := by
  intro dk
  induction dk with
  | nil =>
    intro di _ hdi w h
    cases di with
    | nil => rfl
    | cons d di2 =>
      exfalso
      rw [List.nil_append, List.cons_append] at h
      rw [startsWithL_head_ne (fun he => hdi d (by simp) he.symm)] at h
      exact Bool.noConfusion h
  | cons e dk2 ih =>
    intro di hdk hdi w h
    cases di with
    | nil =>
      exfalso
      rw [List.cons_append, List.nil_append] at h
      rw [startsWithL_head_ne (hdk e (by simp))] at h
      exact Bool.noConfusion h
    | cons d di2 =>
      rw [List.cons_append, List.cons_append] at h
      simp only [startsWithL, Bool.and_eq_true, beq_iff_eq] at h
      obtain ⟨rfl, h2⟩ := h
      rw [ih di2 (fun c hc => hdk c (by simp [hc])) (fun c hc => hdi c (by simp [hc])) w
        (by simpa [startsWithL] using h2)]

theorem placeholder_prefix_eq {i k : Nat} {t : List Char}
    (h : startsWithL (placeholderFor k) (placeholderFor i ++ t) = true) :
    placeholderFor k = placeholderFor i := by
  rw [placeholderFor_cons (n := k), placeholderFor_cons (n := i)] at h
  simp only [List.cons_append] at h
  simp only [startsWithL_cons_cons] at h
  simp only [List.append_assoc, List.cons_append, List.nil_append] at h
  have hdd := digits_match_eq _ _ (repr_no_underscore k) (repr_no_underscore i) t h
  rw [placeholderFor_cons (n := k), placeholderFor_cons (n := i), hdd]

/-- The sentinel prefix common to every placeholder. -/
def sp16 : List Char := ['_','_','C','O','T','T','O','N','_','I','G','N','O','R','E','_']

theorem drop_sp16 (X : List Char) (m : Nat) : (sp16 ++ X).drop (16 + m) = X.drop m := by
  have h := drop_append_len sp16 X m
  rwa [show sp16.length = 16 from rfl] at h

theorem placeholder_no_inner_match {P : Nat → Prop} {i k : Nat} {t : List Char}
    (hne : placeholderFor i ≠ placeholderFor k) (ht : Weave P t) :
    ∀ j, j < (placeholderFor i).length →
      startsWithL (placeholderFor k) ((placeholderFor i ++ t).drop j) = false := by
  have hform3 : placeholderFor i ++ t =
      '_' :: '_' :: 'C' :: 'O' :: 'T' :: 'T' :: 'O' :: 'N' :: '_' :: 'I' ::
      'G' :: 'N' :: 'O' :: 'R' :: 'E' :: '_' :: ((Nat.repr i).data ++ ('_' :: '_' :: t)) := by
    rw [placeholderFor_cons]
    simp only [List.cons_append, List.append_assoc, List.nil_append]
  have hform2 : placeholderFor i ++ t = sp16 ++ ((Nat.repr i).data ++ ('_' :: '_' :: t)) := by
    rw [hform3]
    simp only [sp16, List.cons_append, List.nil_append]
  intro j hj
  rcases Nat.lt_or_ge j 16 with h16 | h16
  · interval_cases j
    · rw [List.drop_zero]
      cases hsw : startsWithL (placeholderFor k) (placeholderFor i ++ t) with
      | false => rfl
      | true => exact absurd (placeholder_prefix_eq hsw).symm hne
    · rw [hform3]
      show startsWithL (placeholderFor k) ('_' :: 'C' :: 'O' :: 'T' :: 'T' :: 'O' :: 'N' :: '_' :: 'I' :: 'G' :: 'N' :: 'O' :: 'R' :: 'E' :: '_' :: ((Nat.repr i).data ++ ('_' :: '_' :: t))) = false
      rw [placeholderFor_cons, startsWithL_cons_cons]
      exact startsWithL_head_ne (by decide)
    · rw [hform3]
      show startsWithL (placeholderFor k) ('C' :: 'O' :: 'T' :: 'T' :: 'O' :: 'N' :: '_' :: 'I' :: 'G' :: 'N' :: 'O' :: 'R' :: 'E' :: '_' :: ((Nat.repr i).data ++ ('_' :: '_' :: t))) = false
      rw [placeholderFor_cons]
      exact startsWithL_head_ne (by decide)
    · rw [hform3]
      show startsWithL (placeholderFor k) ('O' :: 'T' :: 'T' :: 'O' :: 'N' :: '_' :: 'I' :: 'G' :: 'N' :: 'O' :: 'R' :: 'E' :: '_' :: ((Nat.repr i).data ++ ('_' :: '_' :: t))) = false
      rw [placeholderFor_cons]
      exact startsWithL_head_ne (by decide)
    · rw [hform3]
      show startsWithL (placeholderFor k) ('T' :: 'T' :: 'O' :: 'N' :: '_' :: 'I' :: 'G' :: 'N' :: 'O' :: 'R' :: 'E' :: '_' :: ((Nat.repr i).data ++ ('_' :: '_' :: t))) = false
      rw [placeholderFor_cons]
      exact startsWithL_head_ne (by decide)
    · rw [hform3]
      show startsWithL (placeholderFor k) ('T' :: 'O' :: 'N' :: '_' :: 'I' :: 'G' :: 'N' :: 'O' :: 'R' :: 'E' :: '_' :: ((Nat.repr i).data ++ ('_' :: '_' :: t))) = false
      rw [placeholderFor_cons]
      exact startsWithL_head_ne (by decide)
    · rw [hform3]
      show startsWithL (placeholderFor k) ('O' :: 'N' :: '_' :: 'I' :: 'G' :: 'N' :: 'O' :: 'R' :: 'E' :: '_' :: ((Nat.repr i).data ++ ('_' :: '_' :: t))) = false
      rw [placeholderFor_cons]
      exact startsWithL_head_ne (by decide)
    · rw [hform3]
      show startsWithL (placeholderFor k) ('N' :: '_' :: 'I' :: 'G' :: 'N' :: 'O' :: 'R' :: 'E' :: '_' :: ((Nat.repr i).data ++ ('_' :: '_' :: t))) = false
      rw [placeholderFor_cons]
      exact startsWithL_head_ne (by decide)
    · rw [hform3]
      show startsWithL (placeholderFor k) ('_' :: 'I' :: 'G' :: 'N' :: 'O' :: 'R' :: 'E' :: '_' :: ((Nat.repr i).data ++ ('_' :: '_' :: t))) = false
      rw [placeholderFor_cons, startsWithL_cons_cons]
      exact startsWithL_head_ne (by decide)
    · rw [hform3]
      show startsWithL (placeholderFor k) ('I' :: 'G' :: 'N' :: 'O' :: 'R' :: 'E' :: '_' :: ((Nat.repr i).data ++ ('_' :: '_' :: t))) = false
      rw [placeholderFor_cons]
      exact startsWithL_head_ne (by decide)
    · rw [hform3]
      show startsWithL (placeholderFor k) ('G' :: 'N' :: 'O' :: 'R' :: 'E' :: '_' :: ((Nat.repr i).data ++ ('_' :: '_' :: t))) = false
      rw [placeholderFor_cons]
      exact startsWithL_head_ne (by decide)
    · rw [hform3]
      show startsWithL (placeholderFor k) ('N' :: 'O' :: 'R' :: 'E' :: '_' :: ((Nat.repr i).data ++ ('_' :: '_' :: t))) = false
      rw [placeholderFor_cons]
      exact startsWithL_head_ne (by decide)
    · rw [hform3]
      show startsWithL (placeholderFor k) ('O' :: 'R' :: 'E' :: '_' :: ((Nat.repr i).data ++ ('_' :: '_' :: t))) = false
      rw [placeholderFor_cons]
      exact startsWithL_head_ne (by decide)
    · rw [hform3]
      show startsWithL (placeholderFor k) ('R' :: 'E' :: '_' :: ((Nat.repr i).data ++ ('_' :: '_' :: t))) = false
      rw [placeholderFor_cons]
      exact startsWithL_head_ne (by decide)
    · rw [hform3]
      show startsWithL (placeholderFor k) ('E' :: '_' :: ((Nat.repr i).data ++ ('_' :: '_' :: t))) = false
      rw [placeholderFor_cons]
      exact startsWithL_head_ne (by decide)
    · rw [hform3]
      show startsWithL (placeholderFor k) ('_' :: ((Nat.repr i).data ++ ('_' :: '_' :: t))) = false
      obtain ⟨d, dr, hdr⟩ : ∃ d dr, (Nat.repr i).data = d :: dr := by
        cases hD : (Nat.repr i).data with
        | nil => exact absurd hD (repr_data_ne_nil i)
        | cons d dr => exact ⟨d, dr, rfl⟩
      rw [hdr, List.cons_append, placeholderFor_cons, startsWithL_cons_cons]
      exact startsWithL_head_ne
        (fun he => repr_no_underscore i d (by rw [hdr]; simp) he.symm)
  · rw [placeholderFor_length] at hj
    have hm3 : j - 16 < (Nat.repr i).data.length ∨ j - 16 = (Nat.repr i).data.length ∨
        j - 16 = (Nat.repr i).data.length + 1 := by omega
    have hdropj : (placeholderFor i ++ t).drop j =
        ((Nat.repr i).data ++ ('_' :: '_' :: t)).drop (j - 16) := by
      have hstep : ∀ m, j = 16 + m →
          (placeholderFor i ++ t).drop j
            = ((Nat.repr i).data ++ ('_' :: '_' :: t)).drop m := by
        intro m hm
        rw [hform2, hm, drop_sp16]
      exact hstep (j - 16) (by omega)
    rcases hm3 with hm | hm | hm
    · have hle : j - 16 ≤ (Nat.repr i).data.length := by omega
      rw [hdropj, List.drop_append_of_le_length hle]
      obtain ⟨d, dr, hdr⟩ : ∃ d dr, (Nat.repr i).data.drop (j - 16) = d :: dr := by
        cases hD : (Nat.repr i).data.drop (j - 16) with
        | nil =>
          exfalso
          have hlen := List.length_drop (j - 16) (Nat.repr i).data
          rw [hD] at hlen
          simp only [List.length_nil] at hlen
          omega
        | cons d dr => exact ⟨d, dr, rfl⟩
      have hdmem : d ∈ (Nat.repr i).data :=
        List.drop_subset _ _ (by rw [hdr]; simp)
      rw [hdr, List.cons_append, placeholderFor_cons]
      exact startsWithL_head_ne (fun he => repr_no_underscore i d hdmem he.symm)
    · rw [hdropj, hm, List.drop_left]
      rw [placeholderFor_cons, startsWithL_cons_cons, startsWithL_cons_cons]
      rw [show ('C' :: 'O' :: 'T' :: 'T' :: 'O' :: 'N' :: '_' :: 'I' ::
          'G' :: 'N' :: 'O' :: 'R' :: 'E' :: '_' :: ((Nat.repr k).data ++ ['_', '_']) : List Char)
          = ['C','O','T','T','O','N'] ++ '_' :: 'I' ::
            ('G' :: 'N' :: 'O' :: 'R' :: 'E' :: '_' :: ((Nat.repr k).data ++ ['_', '_'])) from rfl]
      exact Weave.no_mixed_match (by decide) ht _ _ (by decide)
    · have hdropj2 : (placeholderFor i ++ t).drop j = '_' :: t := by
        rw [hdropj, hm, show (Nat.repr i).data.length + 1
            = (Nat.repr i).data.length + 1 from rfl, drop_append_len]
        rfl
      rw [hdropj2, placeholderFor_cons, startsWithL_cons_cons]
      rw [show ('_' :: 'C' :: 'O' :: 'T' :: 'T' :: 'O' :: 'N' :: '_' :: 'I' ::
          'G' :: 'N' :: 'O' :: 'R' :: 'E' :: '_' :: ((Nat.repr k).data ++ ['_', '_']) : List Char)
          = [] ++ '_' :: 'C' :: ('O' :: 'T' :: 'T' :: 'O' :: 'N' :: '_' :: 'I' ::
            'G' :: 'N' :: 'O' :: 'R' :: 'E' :: '_' :: ((Nat.repr k).data ++ ['_', '_'])) from rfl]
      exact Weave.no_mixed_match (by decide) ht _ _ (by decide)

/-! ### Chunk 6: replacement preserves the weave -/

theorem Weave.replace_ph {P : Nat → Prop} {k : Nat} {rep : List Char}
    (hrep : ∀ c ∈ rep, c ≠ '_') :
    ∀ fuel l, Weave P l → l.length < fuel →
      Weave (fun j => P j ∧ placeholderFor j ≠ placeholderFor k)
        (replaceGo fuel (placeholderFor k) rep l) := by
  intro fuel
  induction fuel using Nat.strong_induction_on with
  | _ fuel ih =>
    intro l hl hlen
    cases hl with
    | nil =>
      cases fuel with
      | zero => omega
      | succ f =>
        rw [show replaceGo (f + 1) (placeholderFor k) rep [] = [] from rfl]
        exact .nil
    | chr hc ht =>
      rename_i c t
      cases fuel with
      | zero => simp at hlen
      | succ f =>
        have hsw : startsWithL (placeholderFor k) (c :: t) = false := by
          rw [placeholderFor_cons]
          exact startsWithL_head_ne (fun he => hc he.symm)
        rw [replaceGo_head_no hsw]
        refine .chr hc (ih f (by omega) t ht ?_)
        simp only [List.length_cons] at hlen
        omega
    | ph i hp ht =>
      rename_i t
      have hplen := placeholderFor_length i
      rw [List.length_append] at hlen
      by_cases heq : placeholderFor i = placeholderFor k
      · cases fuel with
        | zero => omega
        | succ f =>
          have hsw : startsWithL (placeholderFor k) (placeholderFor i ++ t) = true := by
            rw [heq]
            exact startsWithL_self_append _ _
          rw [replaceGo_head_match (placeholderFor_ne_nil k) hsw]
          have hdrop : (placeholderFor i ++ t).drop (placeholderFor k).length = t := by
            rw [heq, List.drop_left]
          rw [hdrop]
          refine Weave.append (Weave.chars hrep) (ih f (by omega) t ht (by omega))
      · have hno := placeholder_no_inner_match heq ht
        rw [replaceGo_skip (placeholderFor i) t fuel (by rw [List.length_append]; omega)
          (fun j hj => hno j hj)]
        exact Weave.ph i ⟨hp, heq⟩ (ih (t.length + 1) (by omega) t ht (by omega))

theorem Weave.replace_pat {P : Nat → Prop} {pat rep : List Char}
    (hrep : Weave P rep)
    (hhead : ∃ c0, pat.head? = some c0 ∧ blockChar c0 = false)
    (hlast : ∃ c1, pat.getLast? = some c1 ∧ blockChar c1 = false) :
    ∀ fuel l, Weave P l → l.length < fuel → Weave P (replaceGo fuel pat rep l) := by
  obtain ⟨c0, hc0, hc0b⟩ := hhead
  obtain ⟨c1, hc1, hc1b⟩ := hlast
  have hpatne : pat ≠ [] := by
    cases pat with
    | nil => simp at hc0
    | cons _ _ => simp
  intro fuel
  induction fuel using Nat.strong_induction_on with
  | _ fuel ih =>
    intro l hl hlen
    cases hl with
    | nil =>
      cases fuel with
      | zero => omega
      | succ f =>
        rw [show replaceGo (f + 1) pat rep [] = [] from rfl]
        exact .nil
    | chr hc ht =>
      rename_i c t
      cases fuel with
      | zero => simp at hlen
      | succ f =>
        cases hsw : startsWithL pat (c :: t) with
        | false =>
          rw [replaceGo_head_no hsw]
          refine .chr hc (ih f (by omega) t ht ?_)
          simp only [List.length_cons] at hlen
          omega
        | true =>
          rw [replaceGo_head_match hpatne hsw]
          obtain ⟨r, hr⟩ := (startsWithL_iff pat (c :: t)).mp hsw
          have hWsplit := Weave.split (P := P) (.chr hc ht) hr
            (Or.inl (Or.inr ⟨c1, hc1, hc1b⟩))
          have hdrop : (c :: t).drop pat.length = r := by rw [hr, List.drop_left]
          rw [hdrop]
          have hlr : (c :: t).length = pat.length + r.length := by rw [hr]; simp
          have hp1 : 1 ≤ pat.length := by
            cases pat with
            | nil => exact absurd rfl hpatne
            | cons _ _ => simp
          refine Weave.append hrep (ih f (by omega) r hWsplit.2 ?_)
          simp only [List.length_cons] at hlen hlr
          omega
    | ph i hp ht =>
      rename_i t
      have hplen := placeholderFor_length i
      have hno : ∀ j, j < (placeholderFor i).length →
          startsWithL pat ((placeholderFor i ++ t).drop j) = false := by
        intro j hj
        cases pat with
        | nil => exact absurd rfl hpatne
        | cons p ps =>
          simp only [List.head?_cons] at hc0
          injection hc0 with hpc0
          have hle : j ≤ (placeholderFor i).length := by omega
          rw [List.drop_append_of_le_length hle]
          obtain ⟨d, dr, hdr⟩ : ∃ d dr, (placeholderFor i).drop j = d :: dr := by
            cases hD : (placeholderFor i).drop j with
            | nil =>
              exfalso
              have hld := List.length_drop j (placeholderFor i)
              rw [hD] at hld
              simp only [List.length_nil] at hld
              omega
            | cons d dr => exact ⟨d, dr, rfl⟩
          have hdmem : d ∈ placeholderFor i :=
            List.drop_subset _ _ (by rw [hdr]; simp)
          rw [hdr, List.cons_append]
          refine startsWithL_head_ne (fun he => ?_)
          rw [hpc0] at he
          rw [he] at hc0b
          rw [placeholderFor_blockChars i d hdmem] at hc0b
          exact Bool.noConfusion hc0b
      rw [replaceGo_skip (placeholderFor i) t fuel hlen hno]
      rw [List.length_append] at hlen
      exact Weave.ph i hp (ih (t.length + 1) (by omega) t ht (by omega))

theorem Weave.replaceAll_ph {P : Nat → Prop} {k : Nat} {rep l : List Char}
    (hrep : ∀ c ∈ rep, c ≠ '_') (h : Weave P l) :
    Weave (fun j => P j ∧ placeholderFor j ≠ placeholderFor k)
      (replaceAll l (placeholderFor k) rep) :=
  Weave.replace_ph hrep _ l h (by omega)

theorem Weave.replaceAll_pat {P : Nat → Prop} {pat rep l : List Char}
    (hrep : Weave P rep)
    (hhead : ∃ c0, pat.head? = some c0 ∧ blockChar c0 = false)
    (hlast : ∃ c1, pat.getLast? = some c1 ∧ blockChar c1 = false)
    (h : Weave P l) : Weave P (replaceAll l pat rep) :=
  Weave.replace_pat hrep hhead hlast _ l h (by omega)

theorem Weave.foldl_reps {P : Nat → Prop} :
    ∀ (prs : List (List Char × List Char)) (l : List Char), Weave P l →
      (∀ pr ∈ prs, Weave P pr.2 ∧
        (∃ c0, pr.1.head? = some c0 ∧ blockChar c0 = false) ∧
        (∃ c1, pr.1.getLast? = some c1 ∧ blockChar c1 = false)) →
      Weave P (prs.foldl (fun acc pr => replaceAll acc pr.1 pr.2) l) := by
  intro prs
  induction prs with
  | nil =>
    intro l hl _
    simpa using hl
  | cons pr prs2 ih =>
    intro l hl hprs
    rw [List.foldl_cons]
    obtain ⟨h2, hh, hlst⟩ := hprs pr (by simp)
    exact ih _ (Weave.replaceAll_pat h2 hh hlst hl)
      (fun q hq => hprs q (by simp [hq]))

theorem extract_verbatim_inner_subset {content : List Char} :
    ∀ c ∈ extract_verbatim_inner content, c ∈ content := by
  intro c hc
  unfold extract_verbatim_inner at hc
  split at hc
  · split at hc
    · exact mem_sliceL c hc
    · exact hc
  · exact hc

theorem Weave.restore :
    ∀ (igs : List Ignorable) (P : Nat → Prop) (l : List Char), Weave P l →
      (∀ ig ∈ igs, ∃ k, ig.placeholder = placeholderFor k) →
      (∀ ig ∈ igs, '_' ∉ ig.content) →
      Weave (fun j => P j ∧ ∀ ig ∈ igs, placeholderFor j ≠ ig.placeholder)
        (restore_ignorables l igs) := by
  intro igs
  induction igs with
  | nil =>
    intro P l hl _ _
    rw [show restore_ignorables l [] = l from rfl]
    exact Weave.mono (fun j hj => ⟨hj, by simp⟩) hl
  | cons ig igs2 ih =>
    intro P l hl hph hct
    obtain ⟨k, hk⟩ := hph ig (by simp)
    have hstep : restore_ignorables l (ig :: igs2)
        = restore_ignorables (replaceAll l ig.placeholder
            (if startsWithL ("\x7b% cotton_verbatim".data) (ig.content.dropWhile chWs)
             then extract_verbatim_inner ig.content else ig.content)) igs2 := by
      simp only [restore_ignorables, List.foldl_cons]
    rw [hstep]
    have hcfree : ∀ c ∈ (if startsWithL ("\x7b% cotton_verbatim".data) (ig.content.dropWhile chWs)
        then extract_verbatim_inner ig.content else ig.content), c ≠ '_' := by
      intro c hc he
      subst he
      split at hc
      · exact hct ig (by simp) (extract_verbatim_inner_subset _ hc)
      · exact hct ig (by simp) hc
    have h1 : Weave (fun j => P j ∧ placeholderFor j ≠ placeholderFor k)
        (replaceAll l ig.placeholder
          (if startsWithL ("\x7b% cotton_verbatim".data) (ig.content.dropWhile chWs)
           then extract_verbatim_inner ig.content else ig.content)) := by
      rw [hk]
      exact Weave.replaceAll_ph hcfree hl
    have h2 := ih _ _ h1 (fun q hq => hph q (by simp [hq])) (fun q hq => hct q (by simp [hq]))
    refine Weave.mono (fun j hj => ⟨hj.1.1, fun q hq => ?_⟩) h2
    rcases List.mem_cons.mp hq with rfl | hq2
    · rw [hk]
      exact hj.1.2
    · exact hj.2 q hq2

/-! ### Chunk 7: exclusion produces a weave over its recorded ignorables -/

theorem match_ignorable_content {html : List Char} {i e : Nat} {content : List Char}
    (h : match_ignorable html i = some (e, content)) : content = sliceL html i e := by
  simp only [match_ignorable] at h
  repeat' split at h
  all_goals
    first
      | exact Option.noConfusion h
      | (injection h with h1; injection h1 with he hc; subst he; exact hc.symm)

theorem exclude_go_weave {html : List Char} (hu : '_' ∉ html) :
    ∀ fuel index output igs,
      (∀ ig ∈ igs, '_' ∉ ig.content) →
      (∀ ig ∈ igs, ∃ k, ig.placeholder = placeholderFor k) →
      Weave (fun j => ∃ ig ∈ igs, ig.placeholder = placeholderFor j) output →
      (∀ ig ∈ (exclude_go html fuel index output igs).2, '_' ∉ ig.content) ∧
      (∀ ig ∈ (exclude_go html fuel index output igs).2, ∃ k, ig.placeholder = placeholderFor k) ∧
      Weave (fun j => ∃ ig ∈ (exclude_go html fuel index output igs).2,
          ig.placeholder = placeholderFor j)
        (exclude_go html fuel index output igs).1 := by
  intro fuel
  induction fuel with
  | zero =>
    intro index output igs hct hph hw
    exact ⟨hct, hph, hw⟩
  | succ f ih =>
    intro index output igs hct hph hw
    simp only [exclude_go]
    split
    · cases hmi : match_ignorable html index with
      | some pr =>
        obtain ⟨e, content⟩ := pr
        have hcsub := match_ignorable_content hmi
        dsimp only
        have hctn : ∀ ig ∈ igs ++ [⟨placeholderFor igs.length, content⟩], '_' ∉ ig.content := by
          intro ig hig
          rcases List.mem_append.mp hig with hig | hig
          · exact hct ig hig
          · rcases List.mem_singleton.mp hig with rfl
            intro hmem
            rw [hcsub] at hmem
            exact hu (mem_sliceL '_' hmem)
        have hphn : ∀ ig ∈ igs ++ [⟨placeholderFor igs.length, content⟩],
            ∃ k, ig.placeholder = placeholderFor k := by
          intro ig hig
          rcases List.mem_append.mp hig with hig | hig
          · exact hph ig hig
          · rcases List.mem_singleton.mp hig with rfl
            exact ⟨igs.length, rfl⟩
        have hwn : Weave (fun j => ∃ ig ∈ igs ++ [⟨placeholderFor igs.length, content⟩],
            ig.placeholder = placeholderFor j) (output ++ placeholderFor igs.length) := by
          refine Weave.append
            (Weave.mono (fun j hj => ?_) hw) ?_
          · obtain ⟨ig, hig, he2⟩ := hj
            exact ⟨ig, List.mem_append_left _ hig, he2⟩
          · have hblock := Weave.ph (P := fun j => ∃ ig ∈ igs ++ [⟨placeholderFor igs.length, content⟩],
                ig.placeholder = placeholderFor j) igs.length
              ⟨⟨placeholderFor igs.length, content⟩, by simp, rfl⟩ Weave.nil
            rwa [List.append_nil] at hblock
        exact ih e (output ++ placeholderFor igs.length)
          (igs ++ [⟨placeholderFor igs.length, content⟩]) hctn hphn hwn
      | none =>
        cases hdrop : html.drop index with
        | nil => exact ⟨hct, hph, hw⟩
        | cons ch rest =>
          have hch : ch ≠ '_' := by
            intro he
            subst he
            exact hu (List.mem_of_mem_drop (by rw [hdrop]; simp))
          exact ih (index + 1) (output ++ [ch]) igs hct hph
            (Weave.append hw (Weave.chars (fun d hd => by
              rcases List.mem_singleton.mp hd with rfl
              exact hch)))
    · exact ⟨hct, hph, hw⟩

theorem exclude_ignorables_weave {html : List Char} (hu : '_' ∉ html) :
    (∀ ig ∈ (exclude_ignorables html).2, '_' ∉ ig.content) ∧
    (∀ ig ∈ (exclude_ignorables html).2, ∃ k, ig.placeholder = placeholderFor k) ∧
    Weave (fun j => ∃ ig ∈ (exclude_ignorables html).2, ig.placeholder = placeholderFor j)
      (exclude_ignorables html).1 :=
  exclude_go_weave hu (html.length + 1) 0 [] [] (by simp) (by simp) Weave.nil

/-! ### Chunk 8: cutting a weave along scanner boundaries -/

theorem drop_add_comm (html : List Char) (a m : Nat) :
    html.drop (a + m) = (html.drop a).drop m := by
  rw [List.drop_drop, Nat.add_comm]

theorem weave_slice {P : Nat → Prop} {html : List Char} {a b : Nat}
    (hW : Weave P (html.drop a)) (hab : a ≤ b)
    (hside : html.drop b = [] ∨ ∃ c rest, html.drop b = c :: rest ∧ blockChar c = false) :
    Weave P (sliceL html a b) ∧ Weave P (html.drop b) :=
  Weave.split hW (sliceSplit html a b hab) (Or.inr hside)

theorem weave_cut_countWhile {P : Nat → Prop} {l : List Char} (p : Char → Bool)
    (hW : Weave P l) (hstop : ∀ c, p c = false → blockChar c = false) :
    Weave P (l.take (countWhile p l)) ∧ Weave P (l.drop (countWhile p l)) := by
  refine Weave.split hW (List.take_append_drop _ l).symm (Or.inr ?_)
  rcases countWhile_stop p l with h | ⟨c, t2, he, hpc⟩
  · exact Or.inl h
  · exact Or.inr ⟨c, t2, he, hstop c hpc⟩

theorem weave_peel {P : Nat → Prop} {html : List Char} {s : Nat} {c : Char} {r : List Char}
    (hW : Weave P (html.drop s)) (hr : html.drop s = c :: r) (hc : c ≠ '_') :
    Weave P (html.drop (s + 1)) := by
  have h1 : html.drop (s + 1) = r := by
    rw [drop_add_comm, hr]
    rfl
  rw [h1]
  exact Weave.tail_of_cons (hr ▸ hW) hc

theorem weave_dropWhile_ws {P : Nat → Prop} {l : List Char} (h : Weave P l) :
    Weave P (l.dropWhile chWs) := by
  have hsplit : l = l.takeWhile chWs ++ l.dropWhile chWs :=
    (List.takeWhile_append_dropWhile chWs l).symm
  refine (Weave.split h hsplit (Or.inl ?_)).2
  cases htw : l.takeWhile chWs with
  | nil => exact Or.inl rfl
  | cons c t =>
    refine Or.inr ?_
    obtain ⟨d, hd, hdm⟩ := getLast?_exists_of_ne_nil (l := c :: t) (by simp)
    refine ⟨d, hd, blockChar_ws ?_⟩
    have : d ∈ l.takeWhile chWs := by rw [htw]; exact hdm
    exact List.mem_takeWhile_imp this

theorem Weave.trim {P : Nat → Prop} {l : List Char} (h : Weave P l) :
    Weave P (trimL l) :=
  Weave.dropTrail (weave_dropWhile_ws h)

theorem sliceL_add (html : List Char) (a k : Nat) :
    sliceL html a (a + k) = (html.drop a).take k := by
  unfold sliceL
  rw [Nat.add_sub_cancel_left]

theorem nameStop_blockChar :
    ∀ c : Char, (!(chWs c || c == '>' || c == '/')) = false → blockChar c = false := by
  intro c h
  have h4 : (chWs c || c == '>' || c == '/') = true := by
    cases hb : (chWs c || c == '>' || c == '/') with
    | true => rfl
    | false => rw [hb] at h; simp at h
  simp only [Bool.or_eq_true, beq_iff_eq] at h4
  rcases h4 with (h2 | h2) | h2
  · exact blockChar_ws h2
  · rw [h2]
    decide
  · rw [h2]
    decide

theorem parse_positions_weave {P : Nat → Prop} {html : List Char} {s base k off : Nat}
    (hW : Weave P (html.drop s))
    (hWb : Weave P (html.drop base))
    (hsb : s ≤ base)
    (hr0e : ∃ r0, html.drop s = '<' :: r0)
    (hk : k = countWhile (fun c => !(chWs c || c == '>' || c == '/')) (html.drop base))
    (hscan : scanToGt none (html.drop (base + k)) = some off) :
    Weave P (sliceL html base (base + k)) ∧
    Weave P (sliceL html (base + k) (base + k + off)) ∧
    Weave P (sliceL html s (base + k + off + 1)) ∧
    Weave P (html.drop (base + k + off + 1)) ∧
    (sliceL html s (base + k + off + 1)).head? = some '<' ∧
    (sliceL html s (base + k + off + 1)).getLast? = some '>' := by
  obtain ⟨r0, hr0⟩ := hr0e
  have hcut1 := weave_cut_countWhile _ hWb nameStop_blockChar
  rw [← hk] at hcut1
  have hname : Weave P (sliceL html base (base + k)) := by
    rw [sliceL_add]
    exact hcut1.1
  have hWne : Weave P (html.drop (base + k)) := by
    rw [drop_add_comm]
    exact hcut1.2
  obtain ⟨rest, hrest⟩ := scanToGt_gt hscan
  have hdpos : html.drop (base + k + off) = '>' :: rest := by
    rw [drop_add_comm html (base + k) off]
    exact hrest
  have hs2 := weave_slice (a := base + k) (b := base + k + off) hWne (by omega)
    (Or.inr ⟨'>', rest, hdpos, by decide⟩)
  have hdend : html.drop (base + k + off + 1) = rest := by
    rw [drop_add_comm html (base + k + off) 1, hdpos]
    rfl
  have hWend : Weave P (html.drop (base + k + off + 1)) := by
    rw [hdend]
    exact Weave.tail_of_cons (hdpos ▸ hs2.2) (by decide)
  have hsliceGt : sliceL html (base + k + off) (base + k + off + 1) = ['>'] := by
    rw [sliceL_add, hdpos]
    rfl
  have horig_eq : sliceL html s (base + k + off + 1)
      = sliceL html s (base + k + off) ++ ['>'] := by
    rw [← hsliceGt]
    exact (sliceL_append html s (base + k + off) (base + k + off + 1)
      (by omega) (by omega)).symm
  have hlastO : (sliceL html s (base + k + off + 1)).getLast? = some '>' := by
    rw [horig_eq, List.getLast?_append_of_ne_nil _ (by simp)]
    rfl
  have horig : Weave P (sliceL html s (base + k + off + 1)) :=
    (Weave.split hW (sliceSplit html s (base + k + off + 1) (by omega))
      (Or.inl (Or.inr ⟨'>', hlastO, by decide⟩))).1
  have hheadO : (sliceL html s (base + k + off + 1)).head? = some '<' := by
    have hm : base + k + off + 1 - s = (base + k + off - s) + 1 := by omega
    rw [show sliceL html s (base + k + off + 1)
        = (html.drop s).take (base + k + off + 1 - s) from rfl, hm, hr0,
      List.take_succ_cons, List.head?_cons]
  exact ⟨hname, hs2.1, horig, hWend, hheadO, hlastO⟩

theorem eq_dropLast_append_getLast {l : List Char} {c : Char} (h : l.getLast? = some c) :
    l = l.dropLast ++ [c] := by
  have hne : l ≠ [] := by
    intro he
    rw [he] at h
    simp at h
  have h2 := List.dropLast_append_getLast hne
  rw [List.getLast?_eq_getLast l hne] at h
  injection h with h3
  rw [← h3]
  exact h2.symm

set_option maxHeartbeats 1600000 in
theorem parse_c_tag_weave {P : Nat → Prop} {html : List Char} {s : Nat} {tag : ParsedTag}
    (hW : Weave P (html.drop s)) (h : parse_c_tag html s = .ok (some tag)) :
    Weave P tag.name ∧ Weave P tag.attrs_repr ∧ Weave P tag.original ∧
    Weave P (html.drop tag.end_) ∧
    tag.original.head? = some '<' ∧ tag.original.getLast? = some '>' := by
  have hbounds := parse_c_tag_bounds h
  simp only [parse_c_tag] at h
  repeat' split at h
  all_goals
    first
    | exact Except.noConfusion h fun h2 => Option.noConfusion h2
    | exact Except.noConfusion h
    | (injection h with h2
       injection h2 with h3
       subst h3
       dsimp only at hbounds ⊢
       obtain ⟨hb1, hb2⟩ := hbounds
       rename startsWithL ['/'] _ = true => hclo
       rename ¬ ¬ _ => hsw0
       rename ¬ (_ ∨ _) => hcm
       rename scanToGt _ _ = some _ => hscan
       rw [not_not] at hsw0
       push_neg at hcm
       obtain ⟨hlen2, hcm2⟩ := hcm
       obtain ⟨r0, hr0⟩ := (startsWithL_iff _ _).mp hsw0
       simp only [List.cons_append, List.nil_append] at hr0
       have hW1 : Weave P (html.drop (s + 1)) := weave_peel hW hr0 (by decide)
       obtain ⟨r1, hr1⟩ := (startsWithL_iff _ _).mp hclo
       simp only [List.cons_append, List.nil_append] at hr1
       have hW2 : Weave P (html.drop (s + 1 + 1)) := weave_peel hW1 hr1 (by decide)
       obtain ⟨r2, hr2⟩ := (startsWithL_iff _ _).mp hcm2
       simp only [List.cons_append, List.nil_append] at hr2
       have hr3 : html.drop (s + 1 + 1 + 1) = '-' :: r2 := by
         rw [drop_add_comm html (s + 1 + 1) 1, hr2]
         rfl
       have hW3 : Weave P (html.drop (s + 1 + 1 + 1)) := weave_peel hW2 hr2 (by decide)
       have hW4 : Weave P (html.drop (s + 1 + 1 + 2)) := by
         rw [show s + 1 + 1 + 2 = s + 1 + 1 + 1 + 1 from by omega]
         exact weave_peel hW3 hr3 (by decide)
       obtain ⟨hn, ha, ho, he, hh, hl⟩ :=
         parse_positions_weave hW hW4 (by omega) ⟨r0, hr0⟩ rfl hscan
       exact ⟨hn, Weave.nil, ho, he, hh, hl⟩)
    | (injection h with h2
       injection h2 with h3
       subst h3
       dsimp only at hbounds ⊢
       obtain ⟨hb1, hb2⟩ := hbounds
       rename ¬ ¬ _ => hsw0
       rename ¬ (_ ∨ _) => hcm
       rename scanToGt _ _ = some _ => hscan
       rw [not_not] at hsw0
       push_neg at hcm
       obtain ⟨hlen2, hcm2⟩ := hcm
       obtain ⟨r0, hr0⟩ := (startsWithL_iff _ _).mp hsw0
       simp only [List.cons_append, List.nil_append] at hr0
       have hW1 : Weave P (html.drop (s + 1)) := weave_peel hW hr0 (by decide)
       obtain ⟨r2, hr2⟩ := (startsWithL_iff _ _).mp hcm2
       simp only [List.cons_append, List.nil_append] at hr2
       have hr3 : html.drop (s + 1 + 1) = '-' :: r2 := by
         rw [drop_add_comm html (s + 1) 1, hr2]
         rfl
       have hW2 : Weave P (html.drop (s + 1 + 1)) := weave_peel hW1 hr2 (by decide)
       have hW4 : Weave P (html.drop (s + 1 + 2)) := by
         rw [show s + 1 + 2 = s + 1 + 1 + 1 from by omega]
         exact weave_peel hW2 hr3 (by decide)
       obtain ⟨hn, ha, ho, he, hh, hl⟩ :=
         parse_positions_weave hW hW4 (by omega) ⟨r0, hr0⟩ rfl hscan
       first
       | (rename _ ∧ _ => hsc
          refine ⟨hn, ?_, ho, he, hh, hl⟩
          have hdl := eq_dropLast_append_getLast hsc.2
          exact Weave.dropTrail
            (Weave.split (Weave.dropTrail ha) hdl
              (Or.inr (Or.inr ⟨'/', [], rfl, by decide⟩))).1)
       | exact ⟨hn, Weave.dropTrail ha, ho, he, hh, hl⟩)

/-! ### Chunk 9: attribute parsing preserves the weave -/

theorem weave_cut_ws {P : Nat → Prop} {l : List Char} (hW : Weave P l) :
    Weave P (l.drop (countWhile chWs l)) := by
  refine (Weave.split hW (List.take_append_drop (countWhile chWs l) l).symm (Or.inl ?_)).2
  cases htk : l.take (countWhile chWs l) with
  | nil => exact Or.inl rfl
  | cons c t =>
    obtain ⟨d, hd, hdm⟩ := getLast?_exists_of_ne_nil (l := c :: t) (by simp)
    refine Or.inr ⟨d, hd, blockChar_ws ?_⟩
    refine countWhile_take_all chWs l d ?_
    rw [htk]
    exact hdm

theorem keyStop_blockChar :
    ∀ c : Char, (!(chWs c || c == '=')) = false → blockChar c = false := by
  intro c h
  have h4 : (chWs c || c == '=') = true := by
    cases hb : (chWs c || c == '=') with
    | true => rfl
    | false => rw [hb] at h; simp at h
  simp only [Bool.or_eq_true, beq_iff_eq] at h4
  rcases h4 with h2 | h2
  · exact blockChar_ws h2
  · rw [h2]
    decide

theorem wsStop_blockChar :
    ∀ c : Char, (!(chWs c)) = false → blockChar c = false := by
  intro c h
  refine blockChar_ws ?_
  cases hb : chWs c with
  | true => rfl
  | false => rw [hb] at h; simp at h

/-- The weave property for an attribute record. -/
def weaveAttr (P : Nat → Prop) (a : Attribute) : Prop :=
  Weave P a.key ∧ ∀ v, a.value = some v → Weave P v

theorem eqStop_blockChar (q : Char) (hq : blockChar q = false) :
    ∀ c : Char, (!(c == q)) = false → blockChar c = false := by
  intro c h
  have h4 : (c == q) = true := by
    cases hb : (c == q) with
    | true => rfl
    | false => rw [hb] at h; simp at h
  rw [show c = q from by simpa [beq_iff_eq] using h4]
  exact hq

theorem weave_quote_rest {P : Nat → Prop} {attrs : List Char} {b k : Nat} {q : Char}
    (hW : Weave P (attrs.drop b)) (hq : blockChar q = false) (hqu : q ≠ '_')
    (hk : k = countWhile (fun c => !(c == q)) (attrs.drop b))
    (hlt : b + k < attrs.length) :
    Weave P (attrs.drop (b + k + 1)) := by
  have hWv : Weave P (attrs.drop (b + k)) := by
    rw [drop_add_comm, hk]
    exact (weave_cut_countWhile _ hW (eqStop_blockChar q hq)).2
  rcases countWhile_stop (fun c => !(c == q)) (attrs.drop b) with hnil | ⟨c2, t2, heq2, hc2⟩
  · exfalso
    have h2 : attrs.drop (b + k) = [] := by
      rw [drop_add_comm, hk]
      exact hnil
    have h3 := List.length_drop (b + k) attrs
    rw [h2] at h3
    simp only [List.length_nil] at h3
    omega
  · have hcq : c2 = q := by
      have h4 : (c2 == q) = true := by
        cases hb : (c2 == q) with
        | true => rfl
        | false => rw [hb] at hc2; simp at hc2
      simpa [beq_iff_eq] using h4
    rw [hcq] at heq2
    have hr : attrs.drop (b + k) = q :: t2 := by
      rw [drop_add_comm, hk]
      exact heq2
    exact weave_peel hWv hr hqu

theorem weave_skip_ws {P : Nat → Prop} {attrs : List Char} {i : Nat}
    (h : Weave P (attrs.drop i)) :
    Weave P (attrs.drop (skip_whitespace attrs i)) := by
  simp only [skip_whitespace]
  rw [drop_add_comm]
  exact weave_cut_ws h

set_option maxHeartbeats 1600000 in
theorem parse_attributes_go_weave {P : Nat → Prop} {attrs : List Char} :
    ∀ fuel index acc,
      Weave P (attrs.drop index) →
      (∀ a ∈ acc, weaveAttr P a) →
      ∀ a ∈ parse_attributes_go attrs fuel index acc, weaveAttr P a := by
  intro fuel
  induction fuel with
  | zero =>
    intro index acc _ hacc
    simpa only [parse_attributes_go] using hacc
  | succ fuel ih =>
    intro index acc hW0 hacc
    have hW1 : Weave P (attrs.drop (skip_whitespace attrs index)) := weave_skip_ws hW0
    have hkeyCut := weave_cut_countWhile (fun c => !(chWs c || c == '=')) hW1 keyStop_blockChar
    have hWkey : Weave P (sliceL attrs (skip_whitespace attrs index)
        (skip_whitespace attrs index + countWhile (fun c => !(chWs c || c == '='))
          (attrs.drop (skip_whitespace attrs index)))) := by
      rw [sliceL_add]
      exact hkeyCut.1
    have hW2 : Weave P (attrs.drop (skip_whitespace attrs index
        + countWhile (fun c => !(chWs c || c == '='))
          (attrs.drop (skip_whitespace attrs index)))) := by
      rw [drop_add_comm]
      exact hkeyCut.2
    have hW3 : Weave P (attrs.drop (skip_whitespace attrs (skip_whitespace attrs index
        + countWhile (fun c => !(chWs c || c == '='))
          (attrs.drop (skip_whitespace attrs index))))) := weave_skip_ws hW2
    simp only [parse_attributes_go]
    repeat' split
    all_goals
      first
      | exact hacc
      | (intro a ha
         rcases List.mem_append.mp ha with ha | ha
         · exact hacc a ha
         · rw [List.mem_singleton] at ha
           subst ha
           exact ⟨hWkey, fun v hv => Option.noConfusion hv⟩)
      | (apply ih _ _ hW3
         intro a ha
         rcases List.mem_append.mp ha with ha | ha
         · exact hacc a ha
         · rw [List.mem_singleton] at ha
           subst ha
           exact ⟨hWkey, fun v hv => Option.noConfusion hv⟩)
      | (rename List.drop _ _ = '=' :: _ => heqEq
         rename_i q tail heqQ hq hvlt
         have hW4 := weave_skip_ws (weave_peel hW3 heqEq (by decide))
         simp only [Bool.or_eq_true, beq_iff_eq] at hq
         have hqb : blockChar q = false := by rcases hq with rfl | rfl <;> decide
         have hqu : q ≠ '_' := by rcases hq with rfl | rfl <;> decide
         have hW5 := weave_peel hW4 heqQ hqu
         refine ih _ _ (weave_quote_rest hW5 hqb hqu rfl hvlt) ?_
         intro a ha
         rcases List.mem_append.mp ha with ha | ha
         · exact hacc a ha
         · rw [List.mem_singleton] at ha
           subst ha
           refine ⟨hWkey, fun v hv => ?_⟩
           injection hv with hv
           subst hv
           rw [sliceL_add]
           exact (weave_cut_countWhile _ hW5 (eqStop_blockChar q hqb)).1)
      | (rename List.drop _ _ = '=' :: _ => heqEq
         rename_i q tail heqQ hq hvge
         have hW4 := weave_skip_ws (weave_peel hW3 heqEq (by decide))
         simp only [Bool.or_eq_true, beq_iff_eq] at hq
         have hqb : blockChar q = false := by rcases hq with rfl | rfl <;> decide
         have hqu : q ≠ '_' := by rcases hq with rfl | rfl <;> decide
         have hW5 := weave_peel hW4 heqQ hqu
         refine ih _ _ ?_ ?_
         · rw [drop_add_comm]
           exact (weave_cut_countWhile _ hW5 (eqStop_blockChar q hqb)).2
         · intro a ha
           rcases List.mem_append.mp ha with ha | ha
           · exact hacc a ha
           · rw [List.mem_singleton] at ha
             subst ha
             refine ⟨hWkey, fun v hv => ?_⟩
             injection hv with hv
             subst hv
             rw [sliceL_add]
             exact (weave_cut_countWhile _ hW5 (eqStop_blockChar q hqb)).1)
      | (rename List.drop _ _ = '=' :: _ => heqEq
         have hW4 := weave_skip_ws (weave_peel hW3 heqEq (by decide))
         refine ih _ _ ?_ ?_
         · rw [drop_add_comm]
           exact (weave_cut_countWhile _ hW4 wsStop_blockChar).2
         · intro a ha
           rcases List.mem_append.mp ha with ha | ha
           · exact hacc a ha
           · rw [List.mem_singleton] at ha
             subst ha
             refine ⟨hWkey, fun v hv => ?_⟩
             injection hv with hv
             subst hv
             rw [sliceL_add]
             exact (weave_cut_countWhile _ hW4 wsStop_blockChar).1)

theorem parse_attributes_weave {P : Nat → Prop} {attrs : List Char} (hW : Weave P attrs) :
    ∀ a ∈ parse_attributes attrs, weaveAttr P a :=
  parse_attributes_go_weave _ 0 [] hW (by simp)

theorem parse_c_tag_attrs_weave {P : Nat → Prop} {html : List Char} {s : Nat} {tag : ParsedTag}
    (hW : Weave P (html.drop s)) (h : parse_c_tag html s = .ok (some tag)) :
    ∀ a ∈ tag.attributes, weaveAttr P a := by
  rw [parse_c_tag_attributes_eq h]
  exact fun a ha => parse_attributes_weave (parse_c_tag_weave hW h).2.1 a ha

/-! ### Chunk 10: the replacement builders preserve the weave -/

theorem joinSep_weave {P : Nat → Prop} {sep : List Char} (hsep : Weave P sep) :
    ∀ {chunks : List (List Char)}, (∀ x ∈ chunks, Weave P x) →
      Weave P (joinSep sep chunks) := by
  intro chunks
  induction chunks with
  | nil => exact fun _ => .nil
  | cons x t ih =>
    intro h
    cases t with
    | nil => simpa [joinSep] using h x (by simp)
    | cons y t2 =>
      rw [show joinSep sep (x :: y :: t2) = x ++ sep ++ joinSep sep (y :: t2) from rfl]
      exact Weave.append (Weave.append (h x (by simp)) hsep)
        (ih (fun z hz => h z (by simp [hz])))

theorem build_attribute_strings_weave {P : Nat → Prop} {attrs : List Attribute}
    (hat : ∀ a ∈ attrs, weaveAttr P a) :
    Weave P (build_attribute_strings attrs).1 ∧
    Weave P (build_attribute_strings attrs).2 := by
  have hfold : ∀ (l : List Attribute) (st0 : List (List Char) × List Char),
      (∀ a ∈ l, weaveAttr P a) →
      (∀ x ∈ st0.1, Weave P x) → Weave P st0.2 →
      (∀ x ∈ (l.foldl
          (fun (st : List (List Char) × List Char) (a : Attribute) =>
            match a.value with
            | none => (st.1 ++ [a.key], st.2)
            | some value =>
              if should_extract value then
                (st.1, st.2 ++ "\x7b% attr ".data ++ a.key ++ " %\x7d".data ++ value
                       ++ "\x7b% endattr %\x7d".data)
              else
                (st.1 ++ [a.key ++ "=\"".data ++ value ++ "\"".data], st.2)) st0).1,
        Weave P x) ∧
      Weave P ((l.foldl
          (fun (st : List (List Char) × List Char) (a : Attribute) =>
            match a.value with
            | none => (st.1 ++ [a.key], st.2)
            | some value =>
              if should_extract value then
                (st.1, st.2 ++ "\x7b% attr ".data ++ a.key ++ " %\x7d".data ++ value
                       ++ "\x7b% endattr %\x7d".data)
              else
                (st.1 ++ [a.key ++ "=\"".data ++ value ++ "\"".data], st.2)) st0).2) := by
    intro l
    induction l with
    | nil => intro st0 _ h1 h2; exact ⟨h1, h2⟩
    | cons a t ih =>
      intro st0 hl h1 h2
      simp only [List.foldl_cons]
      have ha := hl a (by simp)
      have hlt : ∀ a2 ∈ t, weaveAttr P a2 := fun a2 h => hl a2 (by simp [h])
      cases hv : a.value with
      | none =>
        have h1n : ∀ x ∈ st0.1 ++ [a.key], Weave P x := by
          intro x hx
          rcases List.mem_append.mp hx with hx | hx
          · exact h1 x hx
          · rw [List.mem_singleton] at hx
            subst hx
            exact ha.1
        exact ih (st0.1 ++ [a.key], st0.2) hlt h1n h2
      | some value =>
        have hval : Weave P value := ha.2 value hv
        by_cases hse : should_extract value = true
        · simp only [hse, if_true]
          have h2n : Weave P (st0.2 ++ "\x7b% attr ".data ++ a.key ++ " %\x7d".data ++ value
              ++ "\x7b% endattr %\x7d".data) := by
            refine Weave.append (Weave.append (Weave.append (Weave.append h2
              (Weave.chars (by decide))) ha.1) (Weave.chars (by decide))) ?_
              |>.append (Weave.chars (by decide))
            exact hval
          exact ih _ hlt h1 h2n
        · simp only [hse, if_false]
          have h1n : ∀ x ∈ st0.1 ++ [a.key ++ "=\"".data ++ value ++ "\"".data],
              Weave P x := by
            intro x hx
            rcases List.mem_append.mp hx with hx | hx
            · exact h1 x hx
            · rw [List.mem_singleton] at hx
              subst hx
              exact Weave.append (Weave.append (Weave.append ha.1
                (Weave.chars (by decide))) hval) (Weave.chars (by decide))
          exact ih _ hlt h1n h2
  have hmain := hfold attrs ([], []) hat (by simp) .nil
  simp only [build_attribute_strings]
  constructor
  · split
    · exact .nil
    · exact Weave.append (Weave.chars (by decide))
        (joinSep_weave (Weave.chars (by decide)) hmain.1)
  · exact hmain.2

theorem process_slot_weave {P : Nat → Prop} {tag : ParsedTag} {repl : List Char}
    (hattrs : ∀ a ∈ tag.attributes, weaveAttr P a)
    (h : process_slot tag = .ok repl) : Weave P repl := by
  unfold process_slot at h
  split at h
  · injection h with h
    subst h
    exact Weave.chars (by decide)
  · cases hf : tag.attributes.find? (fun a => a.key == "name".data && a.value.isSome) with
    | none =>
      rw [hf] at h
      exact absurd h (by simp)
    | some attr =>
      rw [hf] at h
      dsimp only at h
      cases hv : attr.value with
      | none =>
        rw [hv] at h
        exact absurd h (by simp)
      | some value =>
        rw [hv] at h
        injection h with h
        subst h
        have hval := (hattrs attr (List.mem_of_find?_eq_some hf)).2 value hv
        exact Weave.append (Weave.append (Weave.chars (by decide)) hval)
          (Weave.chars (by decide))

theorem process_component_weave {P : Nat → Prop} {tag : ParsedTag}
    {rd : List Char × Option (List Char)}
    (hname : Weave P tag.name)
    (hattrs : ∀ a ∈ tag.attributes, weaveAttr P a)
    (h : process_component tag = .ok rd) : Weave P rd.1 := by
  have hbas := build_attribute_strings_weave hattrs
  have hrepl : Weave P ("\x7b% c ".data ++ tag.name ++ (build_attribute_strings tag.attributes).1
      ++ " %\x7d".data ++ (build_attribute_strings tag.attributes).2
      ++ (if tag.is_self_closing then "\x7b% endc %\x7d".data else [])) := by
    refine Weave.append (Weave.append (Weave.append (Weave.append (Weave.append
      (Weave.chars (by decide)) hname) hbas.1) (Weave.chars (by decide))) hbas.2) ?_
    split
    · exact Weave.chars (by decide)
    · exact .nil
  simp only [process_component] at h
  split at h
  · injection h with h
    subst h
    exact Weave.chars (by decide)
  · split at h
    · cases hf : tag.attributes.find? (fun a => a.key == "is".data) with
      | none =>
        rw [hf] at h
        exact absurd h (by simp)
      | some attr =>
        rw [hf] at h
        dsimp only at h
        cases hv : attr.value with
        | none =>
          rw [hv] at h
          exact absurd h (by simp)
        | some value =>
          rw [hv] at h
          dsimp only at h
          split at h
          · injection h with h
            subst h
            exact hrepl
          · injection h with h
            subst h
            exact hrepl
    · split at h
      · injection h with h
        subst h
        exact hrepl
      · injection h with h
        subst h
        exact hrepl

/-! ### Chunk 11: the declaration extractor preserves the weave -/

theorem process_c_vars_go_weave {P : Nat → Prop} {html : List Char} :
    ∀ fuel index vc out res,
      Weave P (html.drop index) →
      (∀ v, vc = some v → Weave P v) →
      Weave P out →
      process_c_vars_go html fuel index vc out = .ok res →
      (∀ v, res.1 = some v → Weave P v) ∧ Weave P res.2 := by
  intro fuel
  induction fuel with
  | zero =>
    intro index vc out res _ _ _ h
    exact absurd h (by simp [process_c_vars_go])
  | succ fuel ih =>
    intro index vc out res hWi hvc hout h
    simp only [process_c_vars_go] at h
    cases hfind : findSub ("<c-vars".data) (html.drop index) with
    | none =>
      rw [hfind] at h
      dsimp only at h
      injection h with h
      subst h
      exact ⟨hvc, Weave.append hout hWi⟩
    | some pos =>
      rw [hfind] at h
      dsimp only at h
      have hsw := findSub_some hfind
      obtain ⟨r1, hr1⟩ := (startsWithL_iff _ _).mp hsw
      simp only [List.cons_append, List.nil_append] at hr1
      have habs : html.drop (index + pos) = '<' :: ('c' :: '-' :: 'v' :: 'a' :: 'r' :: 's' :: r1) := by
        rw [drop_add_comm]
        exact hr1
      have hcut := weave_slice (a := index) (b := index + pos) hWi (by omega)
        (Or.inr ⟨'<', _, habs, by decide⟩)
      cases hpt : parse_c_tag html (index + pos) with
      | error msg =>
        rw [hpt] at h
        exact absurd h (by simp)
      | ok otag =>
        rw [hpt] at h
        cases otag with
        | none =>
          dsimp only at h
          refine ih _ _ _ _ (weave_peel hcut.2 habs (by decide)) hvc ?_ h
          refine Weave.append (Weave.append hout hcut.1) ?_
          rw [show sliceL html (index + pos) (index + pos + 1) = ['<'] from by
            rw [sliceL_add, habs]
            rfl]
          exact Weave.chars (by decide)
        | some tag =>
          dsimp only at h
          have htag := parse_c_tag_weave hcut.2 hpt
          split at h
          · exact ih _ _ _ _ htag.2.2.2.1 hvc
              (Weave.append (Weave.append hout hcut.1) htag.2.2.1) h
          · split at h
            · exact absurd h (by simp)
            · split at h
              · exact absurd h (by simp)
              · have hvcn : ∀ v, (some ("\x7b% vars ".data ++ trimL tag.attrs_repr
                    ++ " %\x7d".data) : Option (List Char)) = some v → Weave P v := by
                  intro v hv
                  injection hv with hv
                  subst hv
                  exact Weave.append (Weave.append (Weave.chars (by decide))
                    (Weave.trim htag.2.1)) (Weave.chars (by decide))
                split at h
                · exact ih _ _ _ _ htag.2.2.2.1 hvcn (Weave.append hout hcut.1) h
                · cases hfc : findSub ("</c-vars>".data) (html.drop tag.end_) with
                  | none =>
                    rw [hfc] at h
                    exact absurd h (by simp)
                  | some close_rel =>
                    rw [hfc] at h
                    dsimp only at h
                    have hsw2 := findSub_some hfc
                    obtain ⟨r2, hr2⟩ := (startsWithL_iff _ _).mp hsw2
                    simp only [List.cons_append, List.nil_append] at hr2
                    have hd2 : html.drop (tag.end_ + close_rel)
                        = '<' :: ('/' :: 'c' :: '-' :: 'v' :: 'a' :: 'r' :: 's' :: '>' :: r2) := by
                      rw [drop_add_comm]
                      exact hr2
                    have hWc : Weave P (html.drop (tag.end_ + close_rel)) :=
                      (weave_slice (a := tag.end_) (b := tag.end_ + close_rel)
                        htag.2.2.2.1 (by omega) (Or.inr ⟨'<', _, hd2, by decide⟩)).2
                    have hWr2 : Weave P r2 := by
                      rw [hd2] at hWc
                      exact (((((((((hWc.tail_of_cons (by decide)).tail_of_cons
                        (by decide)).tail_of_cons (by decide)).tail_of_cons
                        (by decide)).tail_of_cons (by decide)).tail_of_cons
                        (by decide)).tail_of_cons (by decide)).tail_of_cons
                        (by decide)).tail_of_cons (by decide))
                    refine ih _ _ _ _ ?_ hvcn (Weave.append hout hcut.1) h
                    have hd3 : html.drop (tag.end_ + close_rel + ("</c-vars>".data).length)
                        = r2 := by
                      rw [drop_add_comm html (tag.end_ + close_rel), hd2]
                      rfl
                    rw [hd3]
                    exact hWr2

/-! ### Chunk 12: collection of replacements preserves the weave -/

theorem collect_go_weave {P : Nat → Prop} {html : List Char} :
    ∀ fuel index reps deps seen res,
      Weave P (html.drop index) →
      (∀ pr ∈ reps, Weave P pr.2 ∧
        (∃ c0, pr.1.head? = some c0 ∧ blockChar c0 = false) ∧
        (∃ c1, pr.1.getLast? = some c1 ∧ blockChar c1 = false)) →
      collect_go html fuel index reps deps seen = .ok res →
      ∀ pr ∈ res.1, Weave P pr.2 ∧
        (∃ c0, pr.1.head? = some c0 ∧ blockChar c0 = false) ∧
        (∃ c1, pr.1.getLast? = some c1 ∧ blockChar c1 = false) := by
  intro fuel
  induction fuel with
  | zero =>
    intro index reps deps seen res _ _ h
    exact absurd h (by simp [collect_go])
  | succ fuel ih =>
    intro index reps deps seen res hWi hreps h
    simp only [collect_go] at h
    split at h
    · cases hfind : findSub ("<".data) (html.drop index) with
      | none =>
        rw [hfind] at h
        injection h with h
        subst h
        exact hreps
      | some rel =>
        rw [hfind] at h
        dsimp only at h
        have hsw := findSub_some hfind
        obtain ⟨r1, hr1⟩ := (startsWithL_iff _ _).mp hsw
        simp only [List.cons_append, List.nil_append] at hr1
        have habs : html.drop (index + rel) = '<' :: r1 := by
          rw [drop_add_comm]
          exact hr1
        have hcut := weave_slice (a := index) (b := index + rel) hWi (by omega)
          (Or.inr ⟨'<', _, habs, by decide⟩)
        cases hpt : parse_c_tag html (index + rel) with
        | error msg =>
          rw [hpt] at h
          exact absurd h (by simp)
        | ok otag =>
          rw [hpt] at h
          cases otag with
          | none =>
            dsimp only at h
            exact ih _ _ _ _ _ (weave_peel hcut.2 habs (by decide)) hreps h
          | some tag =>
            dsimp only at h
            have htag := parse_c_tag_weave hcut.2 hpt
            have hattrsW := parse_c_tag_attrs_weave hcut.2 hpt
            have hpushSame : ∀ (repl : List Char), Weave P repl →
                ∀ pr ∈ reps ++ [(tag.original, repl)], Weave P pr.2 ∧
                  (∃ c0, pr.1.head? = some c0 ∧ blockChar c0 = false) ∧
                  (∃ c1, pr.1.getLast? = some c1 ∧ blockChar c1 = false) := by
              intro repl hrepl pr hpr
              rcases List.mem_append.mp hpr with hpr | hpr
              · exact hreps pr hpr
              · rw [List.mem_singleton] at hpr
                subst hpr
                exact ⟨hrepl, ⟨'<', htag.2.2.2.2.1, by decide⟩,
                  ⟨'>', htag.2.2.2.2.2, by decide⟩⟩
            split at h
            · exact ih _ _ _ _ _ htag.2.2.2.1 hreps h
            · split at h
              · exact ih _ _ _ _ _ htag.2.2.2.1 hreps h
              · split at h
                · cases hps : process_slot tag with
                  | error msg =>
                    rw [hps] at h
                    exact absurd h (by simp)
                  | ok replacement =>
                    rw [hps] at h
                    dsimp only at h
                    exact ih _ _ _ _ _ htag.2.2.2.1
                      (hpushSame replacement (process_slot_weave hattrsW hps)) h
                · cases hpc : process_component tag with
                  | error msg =>
                    rw [hpc] at h
                    exact absurd h (by simp)
                  | ok rd =>
                    rw [hpc] at h
                    dsimp only at h
                    exact ih _ _ _ _ _ htag.2.2.2.1
                      (hpushSame rd.1 (process_component_weave htag.1 hattrsW hpc)) h
    · injection h with h
      subst h
      exact hreps

/-! ### Chunk 13: the pipeline never leaks a sentinel on underscore-free input -/

theorem weave_no_sentinel {l : List Char} (hu : '_' ∉ l) :
    containsSub ("__COTTON_IGNORE_".data) l = false := by
  cases hc : containsSub ("__COTTON_IGNORE_".data) l with
  | false => rfl
  | true =>
    exfalso
    unfold containsSub at hc
    cases hf : findSub ("__COTTON_IGNORE_".data) l with
    | none =>
      rw [hf] at hc
      simp at hc
    | some k =>
      have hsw := findSub_some hf
      have hmem := startsWithL_mem hsw '_' (by decide)
      exact hu (List.mem_of_mem_drop hmem)

theorem process_underscore_free_no_sentinel {s out : List Char} (hu : '_' ∉ s)
    (h : process s = .ok out) : containsSub ("__COTTON_IGNORE_".data) out = false := by
  simp only [process] at h
  cases hpi : process_internal s with
  | error e =>
    rw [hpi] at h
    exact absurd h (by simp [Except.map])
  | ok r =>
    rw [hpi] at h
    simp only [Except.map] at h
    injection h with h
    subst h
    obtain ⟨hig_ct, hig_ph, hW0⟩ := exclude_ignorables_weave hu
    simp only [process_internal] at hpi
    cases hpcv : process_c_vars (exclude_ignorables s).1 with
    | error e =>
      rw [hpcv] at hpi
      exact absurd hpi (by simp)
    | ok vp =>
      rw [hpcv] at hpi
      dsimp only at hpi
      cases hcol : collect_replacements vp.2 with
      | error e =>
        rw [hcol] at hpi
        exact absurd hpi (by simp)
      | ok rd =>
        rw [hcol] at hpi
        dsimp only at hpi
        injection hpi with hpi
        subst hpi
        dsimp only
        simp only [process_c_vars] at hpcv
        have hvp := process_c_vars_go_weave _ 0 none [] vp hW0
          (fun v hv => Option.noConfusion hv) Weave.nil hpcv
        simp only [collect_replacements] at hcol
        have hreps := collect_go_weave _ 0 [] [] [] rd hvp.2 (by simp) hcol
        have hc0 : Weave (fun j => ∃ ig ∈ (exclude_ignorables s).2,
            ig.placeholder = placeholderFor j)
            (rd.1.foldl (fun acc pr => replaceAll acc pr.1 pr.2) vp.2) :=
          Weave.foldl_reps rd.1 vp.2 hvp.2 hreps
        have hc1 : Weave (fun j => ∃ ig ∈ (exclude_ignorables s).2,
            ig.placeholder = placeholderFor j)
            (match vp.1 with
             | some vars => vars ++ (rd.1.foldl (fun acc pr => replaceAll acc pr.1 pr.2) vp.2)
                 ++ "\x7b% endvars %\x7d".data
             | none => rd.1.foldl (fun acc pr => replaceAll acc pr.1 pr.2) vp.2) := by
          cases hv1 : vp.1 with
          | none => exact hc0
          | some vars =>
            dsimp only
            exact Weave.append (Weave.append (hvp.1 vars hv1) hc0) (Weave.chars (by decide))
        have hrest := Weave.restore (exclude_ignorables s).2 _ _ hc1 hig_ph hig_ct
        have hunsat : ∀ j, ¬ ((∃ ig ∈ (exclude_ignorables s).2,
            ig.placeholder = placeholderFor j) ∧
            ∀ ig ∈ (exclude_ignorables s).2, placeholderFor j ≠ ig.placeholder) := by
          intro j hj
          obtain ⟨⟨ig, hig, hpl⟩, hall⟩ := hj
          exact hall ig hig hpl.symm
        exact weave_no_sentinel (Weave.no_underscore hunsat hrest)

/-! ## Claim theorems -/

/-- Claim C1: the spec demands a hard error for a closing variable-declaration
tag with no preceding opener, but the pipeline completes successfully: the
extractor scans only for opening-tag text, which never matches a closing tag,
so its orphan-closing-tag branch is unreachable and the closing tag passes
through to the output unchanged. -/
theorem C1_orphan_closing_cvars_no_error :
    process ("</c-vars>".data) = .ok ("</c-vars>".data) ∧
    get_dependencies ("</c-vars>".data) = .ok [] := ⟨rfl, rfl⟩

/-- Claim C2 counterexample: the duplicate-declaration error message carries
no line-number prefix at all, and a slot error that follows a comment block
containing a newline is reported at line 1 of the working text although the
failing tag sits at offset 30, line 2, of the original input. -/
theorem C2_counterexample :
    (process ("<c-vars/><c-vars/>".data) = .error msgMultipleCVars ∧
      startsWithL ("Error in template at line ".data) msgMultipleCVars = false) ∧
    (process ("\x7b% comment %\x7d\n\x7b% endcomment %\x7d<c-slot>".data) =
        .error ("Error in template at line 1: c-slot tag must have a name attribute: <c-slot>".data) ∧
      findSub ("<c-slot".data) ("\x7b% comment %\x7d\n\x7b% endcomment %\x7d<c-slot>".data) = some 30 ∧
      (("\x7b% comment %\x7d\n\x7b% endcomment %\x7d<c-slot>".data).take 30).count '\n' + 1 = 2) :=
  ⟨⟨rfl, by decide⟩, ⟨rfl, by decide, by decide⟩⟩

/-- Claim C2 (amended): every pipeline error either carries the prefix
produced by build_py_error, whose line number is one plus the newline count
of the working text preceding the error position, or is one of the three
fixed declaration-tag messages, which carry no position prefix. -/
theorem C2_amended :
    (∀ s e, process s = .error e →
      startsWithL ("Error in template at line ".data) e = true ∨
      e = msgOrphanCVars ∨ e = msgMultipleCVars ∨ e = msgMissingCVarsClose) ∧
    ∀ msg html pos, build_py_error msg html pos =
      "Error in template at line ".data ++ (Nat.repr ((html.take pos).count '\n' + 1)).data
        ++ ": ".data ++ msg :=
  ⟨fun _ _ h => process_errors h, fun _ _ _ => rfl⟩

/-- Witness for claim C2's amended theorem at a concrete failing input. -/
theorem C2_amended_witness :
    startsWithL ("Error in template at line ".data)
        ("Error in template at line 1: c-slot tag must have a name attribute: <c-slot>".data) = true ∨
    ("Error in template at line 1: c-slot tag must have a name attribute: <c-slot>".data : List Char) = msgOrphanCVars ∨
    ("Error in template at line 1: c-slot tag must have a name attribute: <c-slot>".data : List Char) = msgMultipleCVars ∨
    ("Error in template at line 1: c-slot tag must have a name attribute: <c-slot>".data : List Char) = msgMissingCVarsClose :=
  C2_amended.1 ("<c-slot>".data) _ rfl

/-- Claim C3: the dependency list of every successful run is free of
duplicates, and on the canonical example the names are reported in
first-seen order. -/
theorem C3_dependency_dedup_order :
    (∀ s deps, get_dependencies s = .ok deps → deps.Nodup) ∧
    get_dependencies ("<c-foo><c-bar><c-foo>".data) = .ok ["foo".data, "bar".data] := by
  constructor
  · intro s deps h
    unfold get_dependencies at h
    cases hpi : process_internal s with
    | error e =>
      rw [hpi] at h
      exact absurd h (by simp [Except.map])
    | ok r =>
      rw [hpi] at h
      injection h with h
      subst h
      simp only [process_internal] at hpi
      cases hpcv : process_c_vars (exclude_ignorables s).1 with
      | error e =>
        rw [hpcv] at hpi
        exact absurd hpi (by simp)
      | ok vp =>
        rw [hpcv] at hpi
        dsimp only at hpi
        cases hcr : collect_replacements vp.2 with
        | error e =>
          rw [hcr] at hpi
          exact absurd hpi (by simp)
        | ok rd =>
          rw [hcr] at hpi
          dsimp only at hpi
          injection hpi with hpi
          subst hpi
          dsimp only
          unfold collect_replacements at hcr
          exact collect_go_nodup _ 0 [] [] [] rd (by simp) (by simp) hcr
  · rfl

/-- Witness for claim C3's theorem at a concrete input. -/
theorem C3_witness : (["foo".data, "bar".data] : List (List Char)).Nodup :=
  C3_dependency_dedup_order.1 ("<c-foo><c-bar><c-foo>".data) ["foo".data, "bar".data] rfl

/-- Claim C4 counterexample: a verbatim block whose opening delimiter has no
space before the keyword is recognised and protected by the scanner, but the
restoration pass does not strip its delimiters (it tests for the
one-space spelling only), so the output is not the bare inner body the claim
demands. -/
theorem C4_counterexample :
    process ("\x7b%cotton_verbatim%\x7d<c-foo>\x7b% endcotton_verbatim %\x7d".data) =
      .ok ("\x7b%cotton_verbatim%\x7d<c-foo>\x7b% endcotton_verbatim %\x7d".data) ∧
    ("\x7b%cotton_verbatim%\x7d<c-foo>\x7b% endcotton_verbatim %\x7d".data : List Char) ≠
      "<c-foo>".data :=
  ⟨rfl, by decide⟩

/-- Claim C4 (amended): for every run w of ASCII whitespace between the
opening brace-percent and the keyword, the scanner recognises and protects
the whole verbatim block, compilation succeeds, and the inner component tag
is never rewritten; the enclosing delimiters are stripped exactly when w is
the single one-space spelling, and for every other whitespace run the block
is restored with its delimiters intact. -/
theorem C4_amended :
    ∀ w : List Char, (∀ c ∈ w, chWs c = true) →
      process ("\x7b%".data ++ w ++ "cotton_verbatim %\x7d<c-foo>\x7b% endcotton_verbatim %\x7d".data) =
        .ok (if w = [' '] then "<c-foo>".data
             else "\x7b%".data ++ w ++ "cotton_verbatim %\x7d<c-foo>\x7b% endcotton_verbatim %\x7d".data) :=
  fun w hw => c4_process w hw

/-- Witness for claim C4's amended theorem at the one-space whitespace run. -/
theorem C4_amended_witness :
    (∀ c ∈ ([' '] : List Char), chWs c = true) ∧
    process ("\x7b%".data ++ [' '] ++ "cotton_verbatim %\x7d<c-foo>\x7b% endcotton_verbatim %\x7d".data) =
      .ok (if ([' '] : List Char) = [' '] then "<c-foo>".data
           else "\x7b%".data ++ [' '] ++ "cotton_verbatim %\x7d<c-foo>\x7b% endcotton_verbatim %\x7d".data) :=
  ⟨by decide, C4_amended [' '] (by decide)⟩

/-- Claim C5 counterexample: an input containing two variable-declaration
tags, the second inside the body of the first, compiles successfully instead
of raising an error, because the body of a non-self-closing declaration is
skipped without being scanned. -/
theorem C5_counterexample :
    process ("<c-vars a=\"1\"><c-vars b=\"2\"/></c-vars>".data) =
      .ok ("\x7b% vars a=\"1\" %\x7d\x7b% endvars %\x7d".data) ∧
    findSub ("<c-vars".data) ("<c-vars a=\"1\"><c-vars b=\"2\"/></c-vars>".data) = some 0 ∧
    findSub ("<c-vars".data)
      (("<c-vars a=\"1\"><c-vars b=\"2\"/></c-vars>".data).drop 1) = some 13 :=
  ⟨rfl, by decide, by decide⟩

/-- Claim C5 (amended): two declaration tags both seen by the extractor's
scan raise the duplicate error, and whenever the pipeline succeeds with a
declaration tag extracted, the compiled output opens with the vars directive
and closes with the endvars terminator. -/
theorem C5_amended :
    process ("<c-vars/><c-vars/>".data) = .error msgMultipleCVars ∧
    ∀ s out v rest, process s = .ok out →
      process_c_vars (exclude_ignorables s).1 = .ok (some v, rest) →
      (∃ r, out = "\x7b% vars".data ++ r) ∧ ∃ f, out = f ++ "\x7b% endvars %\x7d".data :=
  ⟨rfl, fun _ _ _ _ h hp => process_vars_affixes hp h⟩

/-- Witness for claim C5's amended theorem at a concrete input. -/
theorem C5_amended_witness :
    (∃ r, ("\x7b% vars a=\"1\" %\x7dhello \x7b% c foo %\x7dx\x7b% endc %\x7d\x7b% endvars %\x7d".data : List Char) =
      "\x7b% vars".data ++ r) ∧
    ∃ f, ("\x7b% vars a=\"1\" %\x7dhello \x7b% c foo %\x7dx\x7b% endc %\x7d\x7b% endvars %\x7d".data : List Char) =
      f ++ "\x7b% endvars %\x7d".data :=
  C5_amended.2 ("<c-vars a=\"1\"/>hello <c-foo>x</c-foo>".data)
    ("\x7b% vars a=\"1\" %\x7dhello \x7b% c foo %\x7dx\x7b% endc %\x7d\x7b% endvars %\x7d".data)
    ("\x7b% vars a=\"1\" %\x7d".data) ("hello <c-foo>x</c-foo>".data) rfl rfl

/-- Claim C6: an opening dynamic-component tag records its is-attribute's
value as the dependency rather than the literal name component, records no
dependency when the value is an unresolved placeholder token, and a missing
or valueless is attribute is a hard error; concretely, the pipeline reports
widgets.button, reports nothing for a placeholder value, and raises a
line-numbered error without the attribute. -/
theorem C6_dynamic_component :
    (∀ tag : ParsedTag, tag.is_closing = false → tag.name = "component".data →
      (∀ k v, tag.attributes.find? (fun a => a.key == "is".data) = some ⟨k, some v⟩ →
        (startsWithL ("__COTTON_IGNORE_".data) v = false →
          ∃ r, process_component tag = .ok (r, some v)) ∧
        (startsWithL ("__COTTON_IGNORE_".data) v = true →
          ∃ r, process_component tag = .ok (r, none))) ∧
      (∀ k, tag.attributes.find? (fun a => a.key == "is".data) = some ⟨k, none⟩ →
        process_component tag = .error ("c-component tag must include an \"is\" attribute.".data)) ∧
      (tag.attributes.find? (fun a => a.key == "is".data) = none →
        process_component tag = .error ("c-component tag must include an \"is\" attribute.".data))) ∧
    get_dependencies ("<c-component is=\"widgets.button\" />".data) = .ok ["widgets.button".data] ∧
    get_dependencies ("<c-component is=\"\x7b\x7b x \x7d\x7d\" />".data) = .ok [] ∧
    process ("<c-component />".data) =
      .error ("Error in template at line 1: c-component tag must include an \"is\" attribute.".data) := by
  refine ⟨?_, rfl, rfl, rfl⟩
  intro tag hcl hname
  refine ⟨?_, ?_, ?_⟩
  · intro k v hf
    constructor
    · intro hsw
      simp only [process_component, hcl, hname, hf, hsw, Bool.false_eq_true, if_false, if_pos rfl]
      exact ⟨_, rfl⟩
    · intro hsw
      simp only [process_component, hcl, hname, hf, hsw, Bool.false_eq_true, if_false, if_pos rfl]
      exact ⟨_, rfl⟩
  · intro k hf
    simp only [process_component, hcl, hname, hf, Bool.false_eq_true, if_false, if_pos rfl, if_true]
  · intro hf
    simp only [process_component, hcl, hname, hf, Bool.false_eq_true, if_false, if_pos rfl, if_true]

/-- Witness for claim C6's theorem at a concrete parsed tag. -/
theorem C6_witness :
    ∃ r, process_component
      { original := "<c-component is=\"widgets.button\" />".data,
        name := "component".data,
        attributes := [⟨"is".data, some ("widgets.button".data)⟩],
        attrs_repr := "is=\"widgets.button\"".data,
        is_closing := false, is_self_closing := true,
        start := 0, end_ := 36 } = .ok (r, some ("widgets.button".data)) :=
  ((C6_dynamic_component.1
      { original := "<c-component is=\"widgets.button\" />".data,
        name := "component".data,
        attributes := [⟨"is".data, some ("widgets.button".data)⟩],
        attrs_repr := "is=\"widgets.button\"".data,
        is_closing := false, is_self_closing := true,
        start := 0, end_ := 36 } rfl rfl).1 ("is".data) ("widgets.button".data) rfl).1 rfl

/-- Claim C7 counterexample: the sentinel substring reaches the final output
both for an input that already contains it literally and for a sentinel-free
input in which deleting a self-closing declaration tag splices the two
halves of a sentinel together. -/
theorem C7_counterexample :
    (process ("__COTTON_IGNORE_0__".data) = .ok ("__COTTON_IGNORE_0__".data) ∧
      containsSub ("__COTTON_IGNORE_".data) ("__COTTON_IGNORE_0__".data) = true) ∧
    (process ("__COTTON<c-vars/>_IGNORE_x".data) =
        .ok ("\x7b% vars  %\x7d__COTTON_IGNORE_x\x7b% endvars %\x7d".data) ∧
      containsSub ("__COTTON_IGNORE_".data)
        ("\x7b% vars  %\x7d__COTTON_IGNORE_x\x7b% endvars %\x7d".data) = true ∧
      containsSub ("__COTTON_IGNORE_".data) ("__COTTON<c-vars/>_IGNORE_x".data) = false) :=
  ⟨⟨rfl, by decide⟩, ⟨rfl, by decide, by decide⟩⟩

/-- Claim C7 (amended): for every input without an underscore — directive
braces are allowed, so the input may create any number of protected
placeholder regions — a successful compilation resolves every placeholder,
and the sentinel substring never reaches the output. -/
theorem C7_amended :
    ∀ s out, '_' ∉ s → process s = .ok out →
      containsSub ("__COTTON_IGNORE_".data) out = false :=
  fun _ _ hu h => process_underscore_free_no_sentinel hu h

/-- Witness for claim C7's amended theorem at a concrete input whose
directive expression is excluded into a placeholder and restored. -/
theorem C7_amended_witness :
    containsSub ("__COTTON_IGNORE_".data) ("\x7b\x7b x \x7d\x7d<br>".data) = false :=
  C7_amended ("\x7b\x7b x \x7d\x7d<br>".data) ("\x7b\x7b x \x7d\x7d<br>".data)
    (by decide) rfl

/-- Claim C8: the quote-tracking scan stops only at a greater-than sign
outside quotes, so a quoted greater-than does not truncate the tag (the
example tag parses to its full 19 characters with the value a-gt-b), and a
tag whose text ends before an unquoted greater-than is an unterminated-tag
error. -/
theorem C8_quote_safety :
    (∀ (q : Option Char) (l : List Char) (k : Nat), scanToGt q l = some k →
      ∃ rest, l.drop k = '>' :: rest) ∧
    (∃ tag, parse_c_tag ("<c-x label=\"a > b\">".data) 0 = .ok (some tag) ∧
      tag.end_ = 19 ∧ tag.attributes = [⟨"label".data, some ("a > b".data)⟩] ∧
      tag.original = "<c-x label=\"a > b\">".data) ∧
    parse_c_tag ("<c-x label=\"a > b\"".data) 0 = .error ("Unterminated c- tag".data) := by
  refine ⟨fun _ _ _ h => scanToGt_gt h, ⟨_, rfl, rfl, rfl, rfl⟩, rfl⟩

/-- Witness for claim C8's theorem at a concrete scan. -/
theorem C8_witness : ∃ rest, ("a>b".data : List Char).drop 1 = '>' :: rest :=
  C8_quote_safety.1 none ("a>b".data) 1 rfl

/-- Claim C9: the three entry points run the same internal pipeline and
agree on success and failure; process returns the first component of
process_with_dependencies and get_dependencies its second. -/
theorem C9_entry_points_agree :
    ∀ s, process s = (process_with_dependencies s).map Prod.fst ∧
      get_dependencies s = (process_with_dependencies s).map Prod.snd := by
  intro s
  unfold process process_with_dependencies get_dependencies
  cases process_internal s <;> simp [Except.map]

/-- Claim C10: a key followed by an equals sign and then only whitespace or
end of input parses to a single attribute with that key and no value, with
no error. -/
theorem C10_trailing_equals :
    ∀ k w, k ≠ [] → (∀ c ∈ k, chWs c = false ∧ (c == '=') = false) →
      (∀ c ∈ w, chWs c = true) →
      parse_attributes (k ++ '=' :: w) = [⟨k, none⟩] :=
  parse_attributes_trailing_eq

/-- Witness for claim C10's theorem at a concrete attribute text. -/
theorem C10_witness : parse_attributes ("label".data ++ '=' :: [' ']) = [⟨"label".data, none⟩] :=
  C10_trailing_equals ("label".data) [' '] (by decide) (by decide) (by decide)
